import Mathlib

/-!
Verification of the email-digest pipeline (src/main.py): identifier
normalization, spreadsheet row extraction, salon short-code resolution,
API retry policy, offer merging, and persisted-state handling.

Python strings are modeled as Lean `String`/`List Char`.  `str.lower` and
`str.upper` are modeled restricted to the ASCII Latin and Cyrillic
alphabets, which cover every string the program manipulates (offer ids,
brand/model names, Russian salon names and sheet markers).
-/

namespace EmailDigest

/-- Case pairs for `str.lower`: ASCII `A`-`Z` and Cyrillic `А`-`Я`, `Ё`. -/
def lowerTable : List (Char × Char) :=
  [('A', 'a'), ('B', 'b'), ('C', 'c'), ('D', 'd'), ('E', 'e'), ('F', 'f'),
   ('G', 'g'), ('H', 'h'), ('I', 'i'), ('J', 'j'), ('K', 'k'), ('L', 'l'),
   ('M', 'm'), ('N', 'n'), ('O', 'o'), ('P', 'p'), ('Q', 'q'), ('R', 'r'),
   ('S', 's'), ('T', 't'), ('U', 'u'), ('V', 'v'), ('W', 'w'), ('X', 'x'),
   ('Y', 'y'), ('Z', 'z'),
   ('А', 'а'), ('Б', 'б'), ('В', 'в'), ('Г', 'г'), ('Д', 'д'), ('Е', 'е'),
   ('Ж', 'ж'), ('З', 'з'), ('И', 'и'), ('Й', 'й'), ('К', 'к'), ('Л', 'л'),
   ('М', 'м'), ('Н', 'н'), ('О', 'о'), ('П', 'п'), ('Р', 'р'), ('С', 'с'),
   ('Т', 'т'), ('У', 'у'), ('Ф', 'ф'), ('Х', 'х'), ('Ц', 'ц'), ('Ч', 'ч'),
   ('Ш', 'ш'), ('Щ', 'щ'), ('Ъ', 'ъ'), ('Ы', 'ы'), ('Ь', 'ь'), ('Э', 'э'),
   ('Ю', 'ю'), ('Я', 'я'), ('Ё', 'ё')]

/-- Case pairs for `str.upper`, the reverse direction. -/
def upperTable : List (Char × Char) := lowerTable.map (fun p => (p.2, p.1))

def pyLowerChar (c : Char) : Char :=
  ((lowerTable.find? (fun p => p.1 == c)).map Prod.snd).getD c

def pyUpperChar (c : Char) : Char :=
  ((upperTable.find? (fun p => p.1 == c)).map Prod.snd).getD c

/-- The whitespace characters recognized by Python's `str.strip`/`str.split`
(ASCII subset). -/
def isPySpace (c : Char) : Bool :=
  c == ' ' || c == '\t' || c == '\n' || c == '\r' || c.toNat == 11 || c.toNat == 12

def lowerL (l : List Char) : List Char := l.map pyLowerChar

def upperL (l : List Char) : List Char := l.map pyUpperChar

/-- `str.strip()`: drop leading and trailing whitespace. -/
def stripL (l : List Char) : List Char :=
  (l.dropWhile isPySpace).rdropWhile isPySpace

/-- `str.rstrip("/")`: drop all trailing slashes. -/
def rstripSlashL (l : List Char) : List Char :=
  l.rdropWhile (fun c => c == '/')

def pyLower (s : String) : String := ⟨lowerL s.data⟩

def pyUpper (s : String) : String := ⟨upperL s.data⟩

def pyStrip (s : String) : String := ⟨stripL s.data⟩

/-- `normalize_offer_id` (src/main.py): `oid.lower().strip().rstrip("/")`. -/
def normalize_offer_id (s : String) : String :=
  ⟨rstripSlashL (stripL (lowerL s.data))⟩

/-- Python's substring test `needle in hay`. -/
def isSubL (needle : List Char) : List Char → Bool
  | [] => needle.isEmpty
  | c :: t => needle.isPrefixOf (c :: t) || isSubL needle t

def isSub (needle hay : String) : Bool := isSubL needle.data hay.data

/-- The first whitespace-delimited token, i.e. `s.split()[0]`;
`none` models the `IndexError` raised when the string has no token. -/
def firstToken (l : List Char) : Option (List Char) :=
  let t := (l.dropWhile isPySpace).takeWhile (fun c => !isPySpace c)
  if t.isEmpty then none else some t

/-- `str.split(sep)` for a one-character separator. -/
def splitOnCharGo (sep : Char) : List Char → List Char → List (List Char)
  | [], acc => [acc.reverse]
  | c :: t, acc =>
    if c = sep then acc.reverse :: splitOnCharGo sep t []
    else splitOnCharGo sep t (c :: acc)

def splitOnChar (sep : Char) (l : List Char) : List (List Char) :=
  splitOnCharGo sep l []

/-- `str.replace(pat, sub)` for a nonempty pattern: leftmost,
non-overlapping, all occurrences.  The fuel (initially the string
length) bounds the number of loop steps, each of which consumes at
least one character. -/
def replaceLGo (pat sub : List Char) : Nat → List Char → List Char
  | _, [] => []
  | 0, l => l
  | fuel + 1, c :: t =>
    if pat ≠ [] ∧ pat.isPrefixOf (c :: t) then
      sub ++ replaceLGo pat sub fuel ((c :: t).drop pat.length)
    else c :: replaceLGo pat sub fuel t

def pyReplace (s pat sub : String) : String :=
  ⟨replaceLGo pat.data sub.data s.data.length s.data⟩

/-- `str.startswith(pre)`. -/
def pyStartsWith (s pre : String) : Bool := pre.data.isPrefixOf s.data

/-! ## Data model: `ComebackOffer` -/

structure Offer where
  offer_id : String
  brand : String
  model : String
  salon : String
  category : String
  mobile_url : String
  source : String
  price : Option Int := none
  mileage : Option Int := none
  year : Option Int := none
deriving DecidableEq

instance : Inhabited Offer :=
  ⟨{ offer_id := "", brand := "", model := "", salon := "", category := "",
     mobile_url := "", source := "" }⟩

/-- Python truthiness of an optional numeric field:
`None` and `0` are falsy, everything else truthy. -/
def truthyNum : Option Int → Bool
  | none => false
  | some v => v != 0

/-! ## Merge (`merge_offers`, src/main.py:519-543)

The Python function builds a `dict` keyed by normalized offer id whose
values alias the offer objects of the two input lists, and mutates those
objects in place (`existing.source = "both"`, conditional field copies).
We model the two input lists as stores (`Nat → Offer`) addressed by
references, so that the in-place mutation and its effect on the inputs
are captured faithfully. -/

inductive Ref where
  | em (i : Nat)
  | ap (i : Nat)
deriving DecidableEq

/-- Insertion-ordered association list, matching Python `dict`:
assigning to an existing key keeps its position, a new key is appended. -/
def alSet : List (String × Ref) → String → Ref → List (String × Ref)
  | [], k, r => [(k, r)]
  | e :: t, k, r => if e.1 = k then (k, r) :: t else e :: alSet t k r

def alFind : List (String × Ref) → String → Option Ref
  | [], _ => none
  | e :: t, k => if e.1 = k then some e.2 else alFind t k

structure MState where
  eSt : Nat → Offer
  aSt : Nat → Offer
  al : List (String × Ref)

def getRef (s : MState) : Ref → Offer
  | .em i => s.eSt i
  | .ap i => s.aSt i

def setRef (s : MState) (r : Ref) (o : Offer) : MState :=
  match r with
  | .em i => { s with eSt := fun i' => if i' = i then o else s.eSt i' }
  | .ap i => { s with aSt := fun i' => if i' = i then o else s.aSt i' }

/-- The in-place enrichment performed on a matched entry: mark the source
`both`, and copy `price`/`mileage`/`year` only when the incoming value is
truthy and the existing one is falsy. -/
def mutate (ex o : Offer) : Offer :=
  { ex with
    source := "both",
    price := if truthyNum o.price && !truthyNum ex.price then o.price else ex.price,
    mileage := if truthyNum o.mileage && !truthyNum ex.mileage then o.mileage else ex.mileage,
    year := if truthyNum o.year && !truthyNum ex.year then o.year else ex.year }

/-- Seeding loop: `for o in email_offers: merged[key] = o`. -/
def seedStep (s : MState) (i : Nat) : MState :=
  { s with al := alSet s.al (normalize_offer_id (s.eSt i).offer_id) (.em i) }

def seed (s : MState) (idxs : List Nat) : MState := idxs.foldl seedStep s

/-- API loop body: match and enrich in place, or insert the API offer. -/
def apStep (s : MState) (j : Nat) : MState :=
  let o := s.aSt j
  let k := normalize_offer_id o.offer_id
  match alFind s.al k with
  | some r => setRef s r (mutate (getRef s r) o)
  | none => { s with al := alSet s.al k (.ap j) }

def phase2 (s : MState) (idxs : List Nat) : MState := idxs.foldl apStep s

def initState (A B : List Offer) : MState :=
  ⟨fun i => A.getD i default, fun j => B.getD j default, []⟩

/-- Full run of `merge_offers A B`: final dict plus final object states. -/
def mergeRun (A B : List Offer) : MState :=
  phase2 (seed (initState A B) (List.range A.length)) (List.range B.length)

/-- `list(merged.values())`: the merged collection. -/
def mergeResult (A B : List Offer) : List Offer :=
  (mergeRun A B).al.map (fun e => getRef (mergeRun A B) e.2)

/-- The first input list as mutated by `merge_offers`. -/
def emailsAfter (A B : List Offer) : List Offer :=
  (List.range A.length).map (fun i => (mergeRun A B).eSt i)

/-- The second input list as mutated by `merge_offers`. -/
def apisAfter (A B : List Offer) : List Offer :=
  (List.range B.length).map (fun j => (mergeRun A B).aSt j)

/-- Invariant: each dict entry's stored offer normalizes to its key. -/
def KeyInv (s : MState) : Prop :=
  ∀ e ∈ s.al, normalize_offer_id ((getRef s e.2).offer_id) = e.1

/-! ## Salon short-code resolution (`SALON_SHORT`, `short_salon`) -/

/-- The ordered pattern table; Python dicts iterate in insertion order,
so the source order is preserved exactly. -/
def SALON_SHORT : List (String × String) :=
  [("июль екб совхозная", "EKT"),
   ("июль екб металлургов", "EKT"),
   ("июль екб базовый", "EKT"),
   ("июль екб", "EKT"),
   ("июль екб  рынок год", "EKT"),
   ("июль екб выезд", "EKT"),
   ("июль члб копейское", "CHL"),
   ("июль члб", "CHL"),
   ("июль крд", "KRD"),
   ("omoda новые", "OMODA")]

/-- `short_salon` (src/main.py:153-161).  The argument is `none` when the
salon column is absent or the cell empty.  The result is `none` exactly on
the `IndexError` path: a nonempty all-whitespace name that matches no
pattern, where `name.split()[0]` raises. -/
def short_salon : Option String → Option String
  | none => some "???"
  | some name =>
    if name = "" then some "???"
    else
      let lower := pyStrip (pyLower name)
      match SALON_SHORT.find? (fun p => isSub p.1 lower) with
      | some p => some p.2
      | none =>
        match firstToken name.data with
        | some t => some (pyUpper ⟨t.take 3⟩)
        | none => none

/-! ## Spreadsheet cell extraction (`extract_url`, `extract_offer_id`,
`make_mobile_link`, and the row loop of `parse_not_purchased`) -/

/-- A spreadsheet cell as seen through `openpyxl` `values_only` rows:
a string, a number, or an empty cell (`None`). -/
inductive Cell where
  | str (v : String)
  | int (n : Int)
  | blank
deriving DecidableEq

def truthyCell : Cell → Bool
  | .str v => v != ""
  | .int n => n != 0
  | .blank => false

/-- `x or ""`: replace a falsy cell by the empty string. -/
def cellOrEmpty (c : Cell) : Cell := if truthyCell c then c else .str ""

/-- `str(get(row, i) or "")`. -/
def cellToStr (c : Cell) : String :=
  match cellOrEmpty c with
  | .str v => v
  | .int n => toString n
  | .blank => ""

/-- `get(row, idx)` (src/main.py:173-177): `None` when the index is
`None` or out of range. -/
def getCell (row : List Cell) : Option Nat → Cell
  | none => .blank
  | some i => (row.get? i).getD .blank

/-- `extract_url` (src/main.py:106-112): unwrap a `=HYPERLINK` formula,
pass other strings through, return empty for non-strings. -/
def extract_url : Cell → String
  | .str v =>
    if pyStartsWith v "=HYPERLINK" then
      match splitOnChar '\"' v.data with
      | _ :: p1 :: _ => ⟨p1⟩
      | _ => v
    else v
  | _ => ""

/-- `extract_offer_id` (src/main.py:115-124): last path segment of the
URL with trailing slashes removed, kept only if it passes the
hyphen-plus-digit heuristic. -/
def extract_offer_id (url : String) : String :=
  if url = "" then ""
  else
    let parts := splitOnChar '/' (rstripSlashL url.data)
    match parts.getLast? with
    | some lastSeg =>
      if lastSeg.contains '-' && lastSeg.any Char.isDigit then (⟨lastSeg⟩ : String)
      else ""
    | none => ""

/-- `make_mobile_link` (src/main.py:132-136). -/
def make_mobile_link (url : String) : String :=
  if url = "" then "" else pyReplace url "https://auto.ru/" "https://m.auto.ru/"

/-- The salon cell as passed raw to `short_salon`: `None` and `0` are
falsy (`"???"`), a nonzero number would raise at `.lower()` (`none`). -/
def shortSalonOfCell : Cell → Option String
  | .blank => some "???"
  | .str v => short_salon (some v)
  | .int n => if n = 0 then some "???" else none

/-- Column indices resolved by `col_index` header lookup. -/
structure ColIdx where
  brand : Option Nat
  model : Option Nat
  salon : Option Nat
  link : Option Nat

/-- One iteration of the row loop of `parse_not_purchased` /
`parse_back_on_sale` (src/main.py:264-279) on a fresh `seen` set:
`none` when the row is discarded (empty or non-heuristic id) or when
salon resolution raises. -/
def rowToOffer (cat : String) (ci : ColIdx) (row : List Cell) : Option Offer :=
  let url := extract_url (cellOrEmpty (getCell row ci.link))
  let oid := extract_offer_id url
  if oid = "" then none
  else
    (shortSalonOfCell (getCell row ci.salon)).map (fun sal =>
      { offer_id := oid,
        brand := pyUpper (cellToStr (getCell row ci.brand)),
        model := pyReplace (pyUpper (cellToStr (getCell row ci.model))) " " "_",
        salon := sal,
        category := cat,
        mobile_url := make_mobile_link url,
        source := "email" })

/-! ## API retry policy (`_api_request`, src/main.py:339-374) -/

structure ApiPage where
  items : List Offer
  total : Nat
deriving DecidableEq

/-- Outcome of one HTTP attempt: a parsed body, an `HTTPError` with a
status code, or any other exception (network error, timeout, ...). -/
inductive ApiResp where
  | ok (page : ApiPage)
  | httpErr (code : Nat)
  | exc

def retryCodes : List Nat := [429, 500, 502, 503]

/-- `_api_request`: the oracle gives the outcome of each attempt.
Returns the parsed result (or `none`) together with the number of
requests actually issued. -/
def apiRequest (oracle : Nat → ApiResp) (attempt : Nat) : Option ApiPage × Nat :=
  match oracle attempt with
  | .ok page => (some page, 1)
  | .httpErr code =>
    if code = 401 then (none, 1)
    else if h : attempt < 2 ∧ code ∈ retryCodes then
      let r := apiRequest oracle (attempt + 1)
      (r.1, r.2 + 1)
    else (none, 1)
  | .exc =>
    if h : attempt < 2 then
      let r := apiRequest oracle (attempt + 1)
      (r.1, r.2 + 1)
    else (none, 1)
termination_by 2 - attempt
decreasing_by all_goals omega

/-- The pagination loop of `fetch_api_comeback` (src/main.py:478-511),
with explicit fuel for the unbounded `while`: on a failed request the
loop breaks and returns whatever was accumulated so far. -/
def fetchLoop (req : Nat → Option ApiPage) : Nat → Nat → List Offer → List Offer
  | 0, _, acc => acc
  | fuel + 1, page, acc =>
    match req page with
    | none => acc
    | some pg =>
      if pg.items.isEmpty then acc
      else
        let acc2 := acc ++ pg.items
        if page * 50 ≥ pg.total || pg.items.length < 50 then acc2
        else fetchLoop req fuel (page + 1) acc2

/-! ## Persisted state (`load_state`, `save_state`, and the
commit logic of `run`, src/main.py:59-88 and 679-710) -/

structure StateDict where
  email_message_ids : List String
  api_offer_ids : List String
  api_last_fetch : Option String
deriving DecidableEq

/-- The persisted document after the UTF-8 decode succeeded (or the
file was absent): absent, UTF-8 text that fails JSON parsing
(`json.JSONDecodeError`), the legacy bare list of message ids, a JSON
object (each expected key possibly missing), or some other JSON value.
A file whose bytes do not decode as UTF-8 is *not* one of these shapes;
that layer is `StateFile` below. -/
inductive RawDoc where
  | missing
  | corrupt
  | legacy (ids : List String)
  | jdict (e : Option (List String)) (a : Option (List String)) (f : Option (Option String))
  | other
deriving DecidableEq

/-- `load_state` (src/main.py:59-83) on the shapes its
`except (FileNotFoundError, json.JSONDecodeError)` clause handles:
a missing file, unparsable UTF-8 JSON and unrecognized values yield the
empty default, a bare list becomes `email_message_ids`, a dict gets
missing keys defaulted.  This covers only the caught error paths; the
decode layer, where `load_state` can raise, is `load_state_file`. -/
def load_state : RawDoc → StateDict
  | .legacy ids => ⟨ids, [], none⟩
  | .jdict e a f => ⟨e.getD [], a.getD [], f.getD none⟩
  | _ => ⟨[], [], none⟩

/-- The on-disk state file, one level below `RawDoc`: either its bytes
decode as UTF-8 (or it is absent), classifying as a `RawDoc`, or they do
not decode at all. -/
inductive StateFile where
  | utf8 (doc : RawDoc)
  | nonUtf8
deriving DecidableEq

/-- The full `load_state` including the decode layer: on a non-UTF-8
file, `json.load` raises `UnicodeDecodeError`, which the
`except (FileNotFoundError, json.JSONDecodeError)` clause does not
catch — modeled as `none` (the exception propagates). -/
def load_state_file : StateFile → Option StateDict
  | .utf8 doc => some (load_state doc)
  | .nonUtf8 => none

/-- `save_state`: the document as serialized back to disk. -/
def encodeState (st : StateDict) : RawDoc :=
  .jdict (some st.email_message_ids) (some st.api_offer_ids) (some st.api_last_fetch)

/-- `list(set(a) | set(b))`, with the nondeterministic set order
canonicalized to first-occurrence order. -/
def listUnion (a b : List String) : List String := (a ++ b).dedup

structure RunOutcome where
  attempted : Bool
  written : Option RawDoc
deriving DecidableEq

/-- Step 3 of `run`: drop API offers whose normalized id was already
delivered (the `if sent_api_ids:` guard included). -/
def filteredApi (st : StateDict) (apiOffers : List Offer) : List Offer :=
  if st.api_offer_ids.isEmpty then apiOffers
  else apiOffers.filter (fun o =>
    !st.api_offer_ids.contains (normalize_offer_id o.offer_id))

/-- The state-persistence behavior of `run` (src/main.py:679-710) as a
function of the loaded document, the run's observations and the delivery
outcome: `attempted` records whether delivery was attempted, `written`
what was saved to disk (`none` = file untouched). -/
def runPersist (raw : RawDoc) (hasEmails : Bool) (newEmailIds : List String)
    (emailOffers apiOffers : List Offer) (succ : Bool) (now : String) : RunOutcome :=
  let state := load_state raw
  let api2 := filteredApi state apiOffers
  let merged := mergeResult emailOffers api2
  if merged.isEmpty && !hasEmails then
    ⟨false, some (encodeState state)⟩
  else if merged.isEmpty then
    ⟨false, some (encodeState { state with
        email_message_ids := listUnion state.email_message_ids newEmailIds })⟩
  else if succ then
    ⟨true, some (encodeState
      { email_message_ids := listUnion state.email_message_ids newEmailIds,
        api_offer_ids := listUnion state.api_offer_ids
          ((api2.map (fun o => normalize_offer_id o.offer_id)).dedup),
        api_last_fetch := some now })⟩
  else ⟨true, none⟩

/-- A concrete spreadsheet-origin offer (used to instantiate the merge
properties). -/
def offA : Offer :=
  { offer_id := "X-1/", brand := "BMW", model := "X5_M", salon := "EKT",
    category := "not_purchased", mobile_url := "u", source := "email" }

/-- A concrete api-origin offer with the same normalized id as `offA`
and all numeric fields present. -/
def offB : Offer :=
  { offer_id := "x-1", brand := "BMW", model := "X5_M", salon := "EKT",
    category := "not_purchased", mobile_url := "u2", source := "api",
    price := some 100, mileage := some 5, year := some 2020 }

/-! ## Association-list lemmas -/

def alKeys (al : List (String × Ref)) : List String := al.map Prod.fst

theorem mem_alKeys_alSet {al : List (String × Ref)} {k x : String} {r : Ref}
    (h : x ∈ alKeys (alSet al k r)) : x ∈ alKeys al ∨ x = k := by
  induction al with
  | nil => simpa [alSet, alKeys] using h
  | cons e t ih =>
    by_cases he : e.1 = k
    · simp only [alSet, if_pos he, alKeys, List.map_cons, List.mem_cons] at h
      rcases h with h | h
      · exact Or.inr h
      · exact Or.inl (by
          simp only [alKeys, List.map_cons, List.mem_cons]
          exact Or.inr (by simpa [alKeys] using h))
    · simp only [alSet, if_neg he, alKeys, List.map_cons, List.mem_cons] at h
      rcases h with h | h
      · exact Or.inl (by simp [alKeys, h])
      · rcases ih (by simpa [alKeys] using h) with h' | h'
        · exact Or.inl (by
            simp only [alKeys, List.map_cons, List.mem_cons]
            exact Or.inr h')
        · exact Or.inr h'

theorem alKeys_alSet_nodup {al : List (String × Ref)} {k : String} {r : Ref}
    (h : (alKeys al).Nodup) : (alKeys (alSet al k r)).Nodup := by
  induction al with
  | nil => simp [alSet, alKeys]
  | cons e t ih =>
    simp only [alKeys, List.map_cons, List.nodup_cons] at h
    by_cases he : e.1 = k
    · simp only [alSet, if_pos he, alKeys, List.map_cons, List.nodup_cons]
      exact ⟨he ▸ h.1, h.2⟩
    · simp only [alSet, if_neg he, alKeys, List.map_cons, List.nodup_cons]
      refine ⟨fun hc => ?_, ih h.2⟩
      rcases mem_alKeys_alSet hc with h' | h'
      · exact h.1 h'
      · exact he h'

theorem alSet_of_not_mem {al : List (String × Ref)} {k : String} {r : Ref}
    (h : k ∉ alKeys al) : alSet al k r = al ++ [(k, r)] := by
  induction al with
  | nil => simp [alSet]
  | cons e t ih =>
    simp only [alKeys, List.map_cons, List.mem_cons, not_or] at h
    have hne : ¬ e.1 = k := fun hc => h.1 hc.symm
    simp only [alSet, if_neg hne, List.cons_append]
    rw [ih (by simpa [alKeys] using h.2)]

theorem alFind_eq_none {al : List (String × Ref)} {k : String}
    (h : k ∉ alKeys al) : alFind al k = none := by
  induction al with
  | nil => rfl
  | cons e t ih =>
    simp only [alKeys, List.map_cons, List.mem_cons, not_or] at h
    have hne : ¬ e.1 = k := fun hc => h.1 hc.symm
    simp only [alFind, if_neg hne]
    exact ih (by simpa [alKeys] using h.2)

theorem alFind_isSome_of_mem {al : List (String × Ref)} {k : String}
    (h : k ∈ alKeys al) : (alFind al k).isSome := by
  induction al with
  | nil => simp [alKeys] at h
  | cons e t ih =>
    by_cases he : e.1 = k
    · simp [alFind, he]
    · simp only [alKeys, List.map_cons, List.mem_cons] at h
      rcases h with h | h
      · exact absurd h.symm he
      · simpa [alFind, he] using ih h

theorem alFind_some_mem {al : List (String × Ref)} {k : String} {r : Ref}
    (h : alFind al k = some r) : (k, r) ∈ al := by
  induction al with
  | nil => simp [alFind] at h
  | cons e t ih =>
    by_cases he : e.1 = k
    · simp only [alFind, if_pos he, Option.some.injEq] at h
      have : (k, r) = e := by rw [← he, ← h]
      rw [this]
      exact List.mem_cons_self e t
    · simp only [alFind, if_neg he] at h
      exact List.mem_cons_of_mem _ (ih h)

/-! ## Store lemmas for the merge model -/

theorem getRef_setRef_self (s : MState) (r : Ref) (o : Offer) :
    getRef (setRef s r o) r = o := by
  cases r <;> simp [getRef, setRef]

theorem getRef_setRef_ne (s : MState) {r r' : Ref} (o : Offer) (h : r' ≠ r) :
    getRef (setRef s r o) r' = getRef s r' := by
  cases r with
  | em i =>
    cases r' with
    | em i' =>
      have hne : i' ≠ i := fun hc => h (by rw [hc])
      simp [getRef, setRef, hne]
    | ap i' => simp [getRef, setRef]
  | ap i =>
    cases r' with
    | em i' => simp [getRef, setRef]
    | ap i' =>
      have hne : i' ≠ i := fun hc => h (by rw [hc])
      simp [getRef, setRef, hne]

theorem setRef_getRef (s : MState) (r : Ref) :
    setRef s r (getRef s r) = s := by
  cases r with
  | em i =>
    show MState.mk _ _ _ = _
    congr 1
    funext i'
    by_cases h : i' = i <;> simp [getRef, h]
  | ap i =>
    show MState.mk _ _ _ = _
    congr 1
    funext i'
    by_cases h : i' = i <;> simp [getRef, h]

theorem mutate_offer_id (ex o : Offer) : (mutate ex o).offer_id = ex.offer_id := rfl

theorem getRef_setRef_offer_id (s : MState) (r r' : Ref) (o : Offer)
    (hid : o.offer_id = (getRef s r).offer_id) :
    (getRef (setRef s r o) r').offer_id = (getRef s r').offer_id := by
  by_cases h : r' = r
  · subst h; rw [getRef_setRef_self, hid]
  · rw [getRef_setRef_ne _ _ h]

theorem alFind_none_not_mem {al : List (String × Ref)} {k : String}
    (h : alFind al k = none) : k ∉ alKeys al := by
  intro hmem
  have := alFind_isSome_of_mem hmem
  rw [h] at this
  simp at this

theorem mem_alSet {al : List (String × Ref)} {k : String} {r : Ref}
    {e : String × Ref} (h : e ∈ alSet al k r) : e ∈ al ∨ e = (k, r) := by
  induction al with
  | nil =>
    simp only [alSet, List.mem_singleton] at h
    exact Or.inr h
  | cons e' t ih =>
    by_cases he : e'.1 = k
    · simp only [alSet, if_pos he, List.mem_cons] at h
      rcases h with h | h
      · exact Or.inr h
      · exact Or.inl (List.mem_cons_of_mem _ h)
    · simp only [alSet, if_neg he, List.mem_cons] at h
      rcases h with h | h
      · exact Or.inl (by rw [h]; exact List.mem_cons_self _ _)
      · rcases ih h with h' | h'
        · exact Or.inl (List.mem_cons_of_mem _ h')
        · exact Or.inr h'

/-! ## Merge invariant: dict keys are distinct and each stored offer's
normalized id equals its key -/

theorem setRef_al (s : MState) (r : Ref) (o : Offer) :
    (setRef s r o).al = s.al := by
  cases r <;> rfl

theorem seedStep_inv {s : MState} (h1 : (alKeys s.al).Nodup) (h2 : KeyInv s)
    (i : Nat) :
    (alKeys (seedStep s i).al).Nodup ∧ KeyInv (seedStep s i) := by
  constructor
  · exact alKeys_alSet_nodup h1
  · intro e he
    rcases mem_alSet he with h | h
    · exact h2 e h
    · rw [h]
      rfl

theorem apStep_inv {s : MState} (h1 : (alKeys s.al).Nodup) (h2 : KeyInv s)
    (j : Nat) :
    (alKeys (apStep s j).al).Nodup ∧ KeyInv (apStep s j) := by
  unfold apStep
  cases hf : alFind s.al (normalize_offer_id (s.aSt j).offer_id) with
  | some r =>
    simp only [hf]
    constructor
    · rw [setRef_al]
      exact h1
    · intro e he
      rw [setRef_al] at he
      rw [getRef_setRef_offer_id _ _ _ _ (mutate_offer_id _ _)]
      exact h2 e he
  | none =>
    simp only [hf]
    refine ⟨alKeys_alSet_nodup h1, fun e he => ?_⟩
    rcases mem_alSet he with h | h
    · exact h2 e h
    · rw [h]
      rfl

theorem phase2_inv {s : MState} (h1 : (alKeys s.al).Nodup) (h2 : KeyInv s)
    (idxs : List Nat) :
    (alKeys (phase2 s idxs).al).Nodup ∧ KeyInv (phase2 s idxs) := by
  induction idxs generalizing s with
  | nil => exact ⟨h1, h2⟩
  | cons j t ih =>
    have step := apStep_inv h1 h2 j
    exact ih step.1 step.2

theorem seed_inv {s : MState} (h1 : (alKeys s.al).Nodup) (h2 : KeyInv s)
    (idxs : List Nat) :
    (alKeys (seed s idxs).al).Nodup ∧ KeyInv (seed s idxs) := by
  induction idxs generalizing s with
  | nil => exact ⟨h1, h2⟩
  | cons i t ih =>
    have step := seedStep_inv h1 h2 i
    exact ih step.1 step.2

theorem mergeRun_inv (A B : List Offer) :
    (alKeys (mergeRun A B).al).Nodup ∧ KeyInv (mergeRun A B) := by
  have hs := seed_inv (s := initState A B) (by simp [initState, alKeys])
    (by intro e he; simp [initState] at he) (List.range A.length)
  exact phase2_inv hs.1 hs.2 (List.range B.length)

/-! ## Store evolution lemmas -/

theorem getRef_update_al (s : MState) (al' : List (String × Ref)) (r : Ref) :
    getRef { s with al := al' } r = getRef s r := by
  cases r <;> rfl

theorem phase2_cons (s : MState) (j : Nat) (t : List Nat) :
    phase2 s (j :: t) = phase2 (apStep s j) t := rfl

theorem seed_cons (s : MState) (i : Nat) (t : List Nat) :
    seed s (i :: t) = seed (seedStep s i) t := rfl

theorem apStep_eq_match (s : MState) {j : Nat} {r0 : Ref}
    (hf : alFind s.al (normalize_offer_id (s.aSt j).offer_id) = some r0) :
    apStep s j = setRef s r0 (mutate (getRef s r0) (s.aSt j)) := by
  unfold apStep
  simp only [hf]

theorem apStep_eq_insert (s : MState) {j : Nat}
    (hf : alFind s.al (normalize_offer_id (s.aSt j).offer_id) = none) :
    apStep s j =
      { s with al := alSet s.al (normalize_offer_id (s.aSt j).offer_id) (.ap j) } := by
  unfold apStep
  simp only [hf]

theorem apStep_offer_id (s : MState) (j : Nat) (r : Ref) :
    (getRef (apStep s j) r).offer_id = (getRef s r).offer_id := by
  unfold apStep
  cases hf : alFind s.al (normalize_offer_id (s.aSt j).offer_id) with
  | some r0 =>
    simp only [hf]
    exact getRef_setRef_offer_id _ _ _ _ (mutate_offer_id _ _)
  | none =>
    simp only [hf]
    rw [getRef_update_al]

theorem phase2_offer_id (s : MState) (idxs : List Nat) (r : Ref) :
    (getRef (phase2 s idxs) r).offer_id = (getRef s r).offer_id := by
  induction idxs generalizing s with
  | nil => rfl
  | cons j t ih =>
    rw [phase2_cons, ih, apStep_offer_id]

theorem apStep_source (s : MState) (j : Nat) (r : Ref) :
    (getRef (apStep s j) r).source = (getRef s r).source ∨
      (getRef (apStep s j) r).source = "both" := by
  unfold apStep
  cases hf : alFind s.al (normalize_offer_id (s.aSt j).offer_id) with
  | some r0 =>
    simp only [hf]
    by_cases h : r = r0
    · subst h
      rw [getRef_setRef_self]
      exact Or.inr rfl
    · rw [getRef_setRef_ne _ _ h]
      exact Or.inl rfl
  | none =>
    simp only [hf]
    rw [getRef_update_al]
    exact Or.inl rfl

theorem phase2_source (s : MState) (idxs : List Nat) (r : Ref) :
    (getRef (phase2 s idxs) r).source = (getRef s r).source ∨
      (getRef (phase2 s idxs) r).source = "both" := by
  induction idxs generalizing s with
  | nil => exact Or.inl rfl
  | cons j t ih =>
    rw [phase2_cons]
    rcases ih (apStep s j) with h | h
    · rcases apStep_source s j r with h' | h'
      · exact Or.inl (h.trans h')
      · exact Or.inr (h.trans h')
    · exact Or.inr h

theorem apStep_price (s : MState) (j : Nat) (r : Ref)
    (ht : truthyNum (getRef s r).price = true) :
    (getRef (apStep s j) r).price = (getRef s r).price := by
  unfold apStep
  cases hf : alFind s.al (normalize_offer_id (s.aSt j).offer_id) with
  | some r0 =>
    simp only [hf]
    by_cases h : r = r0
    · subst h
      rw [getRef_setRef_self]
      simp [mutate, ht]
    · rw [getRef_setRef_ne _ _ h]
  | none =>
    simp only [hf]
    rw [getRef_update_al]

theorem phase2_price (s : MState) (idxs : List Nat) (r : Ref)
    (ht : truthyNum (getRef s r).price = true) :
    (getRef (phase2 s idxs) r).price = (getRef s r).price := by
  induction idxs generalizing s with
  | nil => rfl
  | cons j t ih =>
    rw [phase2_cons]
    have hstep := apStep_price s j r ht
    rw [ih (apStep s j) (by rw [hstep]; exact ht), hstep]

theorem apStep_mileage (s : MState) (j : Nat) (r : Ref)
    (ht : truthyNum (getRef s r).mileage = true) :
    (getRef (apStep s j) r).mileage = (getRef s r).mileage := by
  unfold apStep
  cases hf : alFind s.al (normalize_offer_id (s.aSt j).offer_id) with
  | some r0 =>
    simp only [hf]
    by_cases h : r = r0
    · subst h
      rw [getRef_setRef_self]
      simp [mutate, ht]
    · rw [getRef_setRef_ne _ _ h]
  | none =>
    simp only [hf]
    rw [getRef_update_al]

theorem phase2_mileage (s : MState) (idxs : List Nat) (r : Ref)
    (ht : truthyNum (getRef s r).mileage = true) :
    (getRef (phase2 s idxs) r).mileage = (getRef s r).mileage := by
  induction idxs generalizing s with
  | nil => rfl
  | cons j t ih =>
    rw [phase2_cons]
    have hstep := apStep_mileage s j r ht
    rw [ih (apStep s j) (by rw [hstep]; exact ht), hstep]

theorem apStep_year (s : MState) (j : Nat) (r : Ref)
    (ht : truthyNum (getRef s r).year = true) :
    (getRef (apStep s j) r).year = (getRef s r).year := by
  unfold apStep
  cases hf : alFind s.al (normalize_offer_id (s.aSt j).offer_id) with
  | some r0 =>
    simp only [hf]
    by_cases h : r = r0
    · subst h
      rw [getRef_setRef_self]
      simp [mutate, ht]
    · rw [getRef_setRef_ne _ _ h]
  | none =>
    simp only [hf]
    rw [getRef_update_al]

theorem phase2_year (s : MState) (idxs : List Nat) (r : Ref)
    (ht : truthyNum (getRef s r).year = true) :
    (getRef (phase2 s idxs) r).year = (getRef s r).year := by
  induction idxs generalizing s with
  | nil => rfl
  | cons j t ih =>
    rw [phase2_cons]
    have hstep := apStep_year s j r ht
    rw [ih (apStep s j) (by rw [hstep]; exact ht), hstep]

/-- References held by no dict entry and not among the processed API
indices are never written. -/
theorem phase2_untouched (s : MState) (idxs : List Nat) (r : Ref)
    (hal : ∀ e ∈ s.al, e.2 ≠ r) (hjs : ∀ j ∈ idxs, Ref.ap j ≠ r) :
    getRef (phase2 s idxs) r = getRef s r := by
  induction idxs generalizing s with
  | nil => rfl
  | cons j t ih =>
    rw [phase2_cons]
    have hstep : getRef (apStep s j) r = getRef s r := by
      cases hf : alFind s.al (normalize_offer_id (s.aSt j).offer_id) with
      | some r0 =>
        rw [apStep_eq_match s hf]
        exact getRef_setRef_ne _ _ (fun hc => hal _ (alFind_some_mem hf) hc.symm)
      | none =>
        rw [apStep_eq_insert s hf, getRef_update_al]
    have hal' : ∀ e ∈ (apStep s j).al, e.2 ≠ r := by
      intro e he
      cases hf : alFind s.al (normalize_offer_id (s.aSt j).offer_id) with
      | some r0 =>
        rw [apStep_eq_match s hf, setRef_al] at he
        exact hal e he
      | none =>
        rw [apStep_eq_insert s hf] at he
        rcases mem_alSet he with h | h
        · exact hal e h
        · rw [h]
          exact hjs j (List.mem_cons_self _ _)
    rw [ih (apStep s j) hal' (fun j' hj' => hjs j' (List.mem_cons_of_mem _ hj')), hstep]

/-- Dict entries persist: the Python loop never removes or replaces an
entry once the key is present (replacement happens only on a key that is
absent, i.e. never in phase 2). -/
theorem phase2_al_mono (s : MState) (idxs : List Nat) {e : String × Ref}
    (he : e ∈ s.al) : e ∈ (phase2 s idxs).al := by
  induction idxs generalizing s with
  | nil => exact he
  | cons j t ih =>
    rw [phase2_cons]
    refine ih (apStep s j) ?_
    cases hf : alFind s.al (normalize_offer_id (s.aSt j).offer_id) with
    | some r0 =>
      rw [apStep_eq_match s hf, setRef_al]
      exact he
    | none =>
      rw [apStep_eq_insert s hf]
      show e ∈ alSet s.al _ _
      rw [alSet_of_not_mem (alFind_none_not_mem hf)]
      exact List.mem_append_left _ he

theorem alFind_append_left {al : List (String × Ref)} (l2 : List (String × Ref))
    {k : String} {r : Ref} (h : alFind al k = some r) :
    alFind (al ++ l2) k = some r := by
  induction al with
  | nil => simp [alFind] at h
  | cons e t ih =>
    by_cases he : e.1 = k
    · simp only [List.cons_append, alFind, if_pos he] at h ⊢
      exact h
    · simp only [List.cons_append, alFind, if_neg he] at h ⊢
      exact ih h

/-- The first dict entry for a key is stable across phase 2. -/
theorem phase2_alFind (s : MState) (idxs : List Nat) {k : String} {r : Ref}
    (h : alFind s.al k = some r) : alFind (phase2 s idxs).al k = some r := by
  induction idxs generalizing s with
  | nil => exact h
  | cons j t ih =>
    rw [phase2_cons]
    refine ih (apStep s j) ?_
    cases hf : alFind s.al (normalize_offer_id (s.aSt j).offer_id) with
    | some r0 =>
      rw [apStep_eq_match s hf, setRef_al]
      exact h
    | none =>
      rw [apStep_eq_insert s hf]
      show alFind (alSet s.al _ _) k = some r
      rw [alSet_of_not_mem (alFind_none_not_mem hf)]
      exact alFind_append_left _ h

/-! ## Re-running the merge on its own mutated inputs -/

theorem getRef_al_irrel {s1 s2 : MState} (he : s1.eSt = s2.eSt)
    (ha : s1.aSt = s2.aSt) (r : Ref) : getRef s1 r = getRef s2 r := by
  cases r <;> simp [getRef, he, ha]

/-- Re-applying the in-place enrichment is a no-op once the entry is
already marked `both` and every numeric-copy guard fails. -/
theorem mutate_eq_self {ex o : Offer} (hs : ex.source = "both")
    (hp : (truthyNum o.price && !truthyNum ex.price) = false)
    (hm : (truthyNum o.mileage && !truthyNum ex.mileage) = false)
    (hy : (truthyNum o.year && !truthyNum ex.year) = false) :
    mutate ex o = ex := by
  cases ex
  simp only [mutate] at *
  simp_all

theorem seed_stores (s : MState) (idxs : List Nat) :
    (seed s idxs).eSt = s.eSt ∧ (seed s idxs).aSt = s.aSt := by
  induction idxs generalizing s with
  | nil => exact ⟨rfl, rfl⟩
  | cons i t ih =>
    rw [seed_cons]
    exact ih (seedStep s i)

theorem seed_al_refs (P : Ref → Prop) {s : MState} {idxs : List Nat}
    (hs : ∀ e ∈ s.al, P e.2) (hi : ∀ i ∈ idxs, P (.em i)) :
    ∀ e ∈ (seed s idxs).al, P e.2 := by
  induction idxs generalizing s with
  | nil => exact hs
  | cons i t ih =>
    rw [seed_cons]
    refine ih (fun e he => ?_) (fun i' hi' => hi i' (List.mem_cons_of_mem _ hi'))
    rcases mem_alSet he with h | h
    · exact hs e h
    · rw [h]
      exact hi i (List.mem_cons_self _ _)

/-- The dict produced by the seeding loop depends only on the key
sequence of the seeded store. -/
theorem seed_al_congr {s1 s2 : MState} (idxs : List Nat)
    (hal : s1.al = s2.al)
    (hk : ∀ i ∈ idxs,
      normalize_offer_id (s1.eSt i).offer_id = normalize_offer_id (s2.eSt i).offer_id) :
    (seed s1 idxs).al = (seed s2 idxs).al := by
  induction idxs generalizing s1 s2 with
  | nil => exact hal
  | cons i t ih =>
    rw [seed_cons, seed_cons]
    refine ih ?_ (fun i' hi' => hk i' (List.mem_cons_of_mem _ hi'))
    show alSet s1.al _ _ = alSet s2.al _ _
    rw [hal, hk i (List.mem_cons_self _ _)]

/-- Core of merge idempotence: running phase 2 a second time, from the
same dict but with the stores as phase 2 left them, changes nothing. -/
theorem phase2_again (s : MState) (idxs : List Nat)
    (hnd : idxs.Nodup)
    (hal : ∀ j ∈ idxs, ∀ e ∈ s.al, e.2 ≠ Ref.ap j) :
    phase2 ⟨(phase2 s idxs).eSt, (phase2 s idxs).aSt, s.al⟩ idxs = phase2 s idxs := by
  induction idxs generalizing s with
  | nil => rfl
  | cons j t ih =>
    have hnd' : t.Nodup := (List.nodup_cons.mp hnd).2
    have hjt : j ∉ t := (List.nodup_cons.mp hnd).1
    cases hf : alFind s.al (normalize_offer_id (s.aSt j).offer_id) with
    | some r0 =>
      have hr0mem := alFind_some_mem hf
      have hr0ne : Ref.ap j ≠ r0 :=
        fun hc => hal j (List.mem_cons_self _ _) _ hr0mem hc.symm
      set st1 := setRef s r0 (mutate (getRef s r0) (s.aSt j)) with hst1
      have hstep : apStep s j = st1 := apStep_eq_match s hf
      have hal1 : st1.al = s.al := setRef_al _ _ _
      set F := phase2 st1 t with hF
      have hFrun : phase2 s (j :: t) = F := by rw [phase2_cons, hstep]
      -- the API offer `o` at index j is never written
      have hoj : getRef F (.ap j) = getRef s (.ap j) := by
        have h1 : getRef F (.ap j) = getRef st1 (.ap j) := by
          refine phase2_untouched st1 t _ (fun e he => ?_) (fun j' hj' hc => ?_)
          · rw [hal1] at he
            exact fun hc => hal j (List.mem_cons_self _ _) e he hc
          · rw [Ref.ap.injEq] at hc
            exact hjt (hc ▸ hj')
        rw [h1, hst1, getRef_setRef_ne _ _ hr0ne]
      -- the entry at r0 absorbs a second enrichment
      have hex1 : getRef st1 r0 = mutate (getRef s r0) (s.aSt j) := by
        rw [hst1, getRef_setRef_self]
      have hsrc : (getRef F r0).source = "both" := by
        rcases phase2_source st1 t r0 with h | h
        · rw [h, hex1]; rfl
        · exact h
      have habsorb : mutate (getRef F r0) (s.aSt j) = getRef F r0 := by
        refine mutate_eq_self hsrc ?_ ?_ ?_
        · by_cases ho : truthyNum (s.aSt j).price = true
          · have h1 : truthyNum (getRef st1 r0).price = true := by
              rw [hex1]
              by_cases hx : truthyNum (getRef s r0).price = true
              · simp [mutate, hx]
              · have hx' : truthyNum (getRef s r0).price = false := by
                  revert hx; cases truthyNum (getRef s r0).price <;> simp
                simp [mutate, ho, hx']
            have h2 : (getRef F r0).price = (getRef st1 r0).price :=
              phase2_price st1 t r0 h1
            simp [ho, h2, h1]
          · have ho' : truthyNum (s.aSt j).price = false := by
              revert ho; cases truthyNum (s.aSt j).price <;> simp
            simp [ho']
        · by_cases ho : truthyNum (s.aSt j).mileage = true
          · have h1 : truthyNum (getRef st1 r0).mileage = true := by
              rw [hex1]
              by_cases hx : truthyNum (getRef s r0).mileage = true
              · simp [mutate, hx]
              · have hx' : truthyNum (getRef s r0).mileage = false := by
                  revert hx; cases truthyNum (getRef s r0).mileage <;> simp
                simp [mutate, ho, hx']
            have h2 : (getRef F r0).mileage = (getRef st1 r0).mileage :=
              phase2_mileage st1 t r0 h1
            simp [ho, h2, h1]
          · have ho' : truthyNum (s.aSt j).mileage = false := by
              revert ho; cases truthyNum (s.aSt j).mileage <;> simp
            simp [ho']
        · by_cases ho : truthyNum (s.aSt j).year = true
          · have h1 : truthyNum (getRef st1 r0).year = true := by
              rw [hex1]
              by_cases hx : truthyNum (getRef s r0).year = true
              · simp [mutate, hx]
              · have hx' : truthyNum (getRef s r0).year = false := by
                  revert hx; cases truthyNum (getRef s r0).year <;> simp
                simp [mutate, ho, hx']
            have h2 : (getRef F r0).year = (getRef st1 r0).year :=
              phase2_year st1 t r0 h1
            simp [ho, h2, h1]
          · have ho' : truthyNum (s.aSt j).year = false := by
              revert ho; cases truthyNum (s.aSt j).year <;> simp
            simp [ho']
      -- the second run's head step
      set S2 : MState := ⟨F.eSt, F.aSt, s.al⟩ with hS2
      have hS2a : S2.aSt j = s.aSt j := by
        have : S2.aSt j = getRef F (.ap j) := rfl
        rw [this, hoj]; rfl
      have hS2find : alFind S2.al (normalize_offer_id (S2.aSt j).offer_id) = some r0 := by
        rw [hS2a]
        exact hf
      have hhead2 : apStep S2 j = S2 := by
        rw [apStep_eq_match S2 hS2find, hS2a]
        have hget : getRef S2 r0 = getRef F r0 := getRef_al_irrel rfl rfl _
        rw [hget, habsorb, ← hget, setRef_getRef]
      rw [hFrun, phase2_cons, hhead2, hS2, ← hal1]
      exact ih st1 hnd' (fun j' hj' e he => by
        rw [hal1] at he
        exact hal j' (List.mem_cons_of_mem _ hj') e he)
    | none =>
      set k := normalize_offer_id (s.aSt j).offer_id with hk
      set st1 : MState := { s with al := alSet s.al k (.ap j) } with hst1
      have hstep : apStep s j = st1 := apStep_eq_insert s hf
      set F := phase2 st1 t with hF
      have hFrun : phase2 s (j :: t) = F := by rw [phase2_cons, hstep]
      have hkey2 : normalize_offer_id (F.aSt j).offer_id = k := by
        have h1 : (getRef F (.ap j)).offer_id = (getRef st1 (.ap j)).offer_id :=
          phase2_offer_id st1 t _
        show normalize_offer_id (getRef F (.ap j)).offer_id = k
        rw [h1]
        rfl
      set S2 : MState := ⟨F.eSt, F.aSt, s.al⟩ with hS2
      have hS2find : alFind S2.al (normalize_offer_id (S2.aSt j).offer_id) = none := by
        show alFind s.al (normalize_offer_id (F.aSt j).offer_id) = none
        rw [hkey2]
        exact hf
      have hhead2 : apStep S2 j = ⟨F.eSt, F.aSt, st1.al⟩ := by
        rw [apStep_eq_insert S2 hS2find]
        show MState.mk _ _ _ = _
        congr 1
        show alSet s.al (normalize_offer_id (F.aSt j).offer_id) (.ap j) = st1.al
        rw [hkey2]
      rw [hFrun, phase2_cons, hhead2]
      exact ih st1 hnd' (fun j' hj' e he => by
        rcases mem_alSet he with h | h
        · exact hal j' (List.mem_cons_of_mem _ hj') e h
        · rw [h]
          intro hc
          rw [Ref.ap.injEq] at hc
          exact hjt (hc ▸ hj'))

theorem MState.ext' {s1 s2 : MState} (he : s1.eSt = s2.eSt)
    (ha : s1.aSt = s2.aSt) (hal : s1.al = s2.al) : s1 = s2 := by
  cases s1
  cases s2
  cases he
  cases ha
  cases hal
  rfl

theorem getD_map_range (n i : Nat) (d : Offer) (f : Nat → Offer) :
    ((List.range n).map f).getD i d = if i < n then f i else d := by
  rw [List.getD_eq_getElem?_getD, List.getElem?_map]
  by_cases h : i < n
  · rw [List.getElem?_range h]
    simp [h]
  · rw [List.getElem?_eq_none (by simpa using Nat.le_of_not_lt h)]
    simp [h]

theorem seed_al_em_refs (A B : List Offer) :
    ∀ e ∈ (seed (initState A B) (List.range A.length)).al, ∃ i, e.2 = Ref.em i ∧ i < A.length := by
  refine seed_al_refs (fun r => ∃ i, r = Ref.em i ∧ i < A.length) ?_ ?_
  · intro e he
    simp [initState] at he
  · intro i hi
    exact ⟨i, rfl, List.mem_range.mp hi⟩

theorem mergeRun_em_untouched (A B : List Offer) {i : Nat} (h : A.length ≤ i) :
    (mergeRun A B).eSt i = default := by
  have h1 : getRef (mergeRun A B) (.em i) = getRef (seed (initState A B) (List.range A.length)) (.em i) := by
    refine phase2_untouched _ _ _ (fun e he => ?_) (fun j _ => by simp)
    obtain ⟨i', hi', hlt⟩ := seed_al_em_refs A B e he
    rw [hi']
    intro hc
    rw [Ref.em.injEq] at hc
    omega
  have h2 : getRef (seed (initState A B) (List.range A.length)) (.em i) =
      getRef (initState A B) (.em i) :=
    getRef_al_irrel (seed_stores _ _).1 (seed_stores _ _).2 _
  show getRef (mergeRun A B) (.em i) = default
  rw [h1, h2]
  show A.getD i default = default
  exact List.getD_eq_default A default h

theorem mergeRun_ap_untouched (A B : List Offer) {j : Nat} (h : B.length ≤ j) :
    (mergeRun A B).aSt j = default := by
  have h1 : getRef (mergeRun A B) (.ap j) = getRef (seed (initState A B) (List.range A.length)) (.ap j) := by
    refine phase2_untouched _ _ _ (fun e he => ?_) (fun j' hj' => ?_)
    · obtain ⟨i', hi', _⟩ := seed_al_em_refs A B e he
      rw [hi']
      simp
    · intro hc
      rw [Ref.ap.injEq] at hc
      have := List.mem_range.mp hj'
      omega
  have h2 : getRef (seed (initState A B) (List.range A.length)) (.ap j) =
      getRef (initState A B) (.ap j) :=
    getRef_al_irrel (seed_stores _ _).1 (seed_stores _ _).2 _
  show getRef (mergeRun A B) (.ap j) = default
  rw [h1, h2]
  show B.getD j default = default
  exact List.getD_eq_default B default h

theorem mergeRun_em_offer_id (A B : List Offer) (i : Nat) :
    ((mergeRun A B).eSt i).offer_id = (A.getD i default).offer_id := by
  have h1 : (getRef (mergeRun A B) (.em i)).offer_id =
      (getRef (seed (initState A B) (List.range A.length)) (.em i)).offer_id :=
    phase2_offer_id _ _ _
  have h2 : getRef (seed (initState A B) (List.range A.length)) (.em i) =
      getRef (initState A B) (.em i) :=
    getRef_al_irrel (seed_stores _ _).1 (seed_stores _ _).2 _
  show (getRef (mergeRun A B) (.em i)).offer_id = _
  rw [h1, h2]
  rfl

theorem emailsAfter_length (A B : List Offer) :
    (emailsAfter A B).length = A.length := by
  simp [emailsAfter]

theorem apisAfter_length (A B : List Offer) :
    (apisAfter A B).length = B.length := by
  simp [apisAfter]

/-- Calling `merge_offers` a second time on its own (mutated) inputs
reproduces the run exactly: same dict, same object states. -/
theorem mergeRun_again (A B : List Offer) :
    mergeRun (emailsAfter A B) (apisAfter A B) = mergeRun A B := by
  have hinit : initState (emailsAfter A B) (apisAfter A B) =
      ⟨(mergeRun A B).eSt, (mergeRun A B).aSt, []⟩ := by
    refine MState.ext' ?_ ?_ rfl
    · funext i
      show (emailsAfter A B).getD i default = (mergeRun A B).eSt i
      rw [emailsAfter, getD_map_range]
      by_cases h : i < A.length
      · simp [h]
      · rw [if_neg h, mergeRun_em_untouched A B (Nat.le_of_not_lt h)]
    · funext j
      show (apisAfter A B).getD j default = (mergeRun A B).aSt j
      rw [apisAfter, getD_map_range]
      by_cases h : j < B.length
      · simp [h]
      · rw [if_neg h, mergeRun_ap_untouched A B (Nat.le_of_not_lt h)]
  have hseed : seed (initState (emailsAfter A B) (apisAfter A B))
      (List.range (emailsAfter A B).length) =
      ⟨(mergeRun A B).eSt, (mergeRun A B).aSt,
       (seed (initState A B) (List.range A.length)).al⟩ := by
    rw [hinit, emailsAfter_length]
    refine MState.ext' (seed_stores _ _).1 (seed_stores _ _).2 ?_
    refine seed_al_congr _ rfl (fun i hi => ?_)
    show normalize_offer_id ((mergeRun A B).eSt i).offer_id =
      normalize_offer_id ((initState A B).eSt i).offer_id
    rw [mergeRun_em_offer_id]
    rfl
  show phase2 (seed (initState (emailsAfter A B) (apisAfter A B))
      (List.range (emailsAfter A B).length)) (List.range (apisAfter A B).length) =
    mergeRun A B
  rw [hseed, apisAfter_length]
  exact phase2_again (seed (initState A B) (List.range A.length))
    (List.range B.length) (List.nodup_range _)
    (fun j _ e he => by
      obtain ⟨i', hi', _⟩ := seed_al_em_refs A B e he
      rw [hi']
      simp)

/-! ## Positional characterization of the merge under duplicate-free keys -/

theorem phase2_append (s : MState) (l1 l2 : List Nat) :
    phase2 s (l1 ++ l2) = phase2 (phase2 s l1) l2 :=
  List.foldl_append _ _ _ _

theorem range_split (n jb : Nat) (h : jb < n) :
    List.range n = List.range jb ++ jb :: List.range' (jb + 1) (n - jb - 1) := by
  rw [List.range_eq_range', List.range_eq_range']
  have h2 : n - jb - 1 + 1 = n - jb := by omega
  have h3 : List.range' jb (n - jb) = jb :: List.range' (jb + 1) (n - jb - 1) := by
    rw [← h2]
    rfl
  rw [← h3]
  have h1 := List.range'_append 0 jb (n - jb) 1
  simp only [Nat.one_mul, Nat.zero_add] at h1
  rw [h1]
  congr 1
  omega

/-- Every dict entry either predates phase 2 or references the API offer
inserted at its own index. -/
theorem phase2_al_sub (s : MState) (idxs : List Nat) :
    ∀ e ∈ (phase2 s idxs).al, e ∈ s.al ∨ ∃ j ∈ idxs, e.2 = Ref.ap j := by
  induction idxs generalizing s with
  | nil => exact fun e he => Or.inl he
  | cons j t ih =>
    intro e he
    rw [phase2_cons] at he
    rcases ih (apStep s j) e he with h | h
    · cases hf : alFind s.al (normalize_offer_id (s.aSt j).offer_id) with
      | some r0 =>
        rw [apStep_eq_match s hf, setRef_al] at h
        exact Or.inl h
      | none =>
        rw [apStep_eq_insert s hf] at h
        rcases mem_alSet h with h' | h'
        · exact Or.inl h'
        · exact Or.inr ⟨j, List.mem_cons_self _ _, by rw [h']⟩
    · obtain ⟨j', hj', he'⟩ := h
      exact Or.inr ⟨j', List.mem_cons_of_mem _ hj', he'⟩

/-- Every dict key either predates phase 2 or is the normalized id of one
of the processed API offers. -/
theorem phase2_alKeys_sub (s : MState) (idxs : List Nat) :
    ∀ x ∈ alKeys (phase2 s idxs).al, x ∈ alKeys s.al ∨
      ∃ j ∈ idxs, x = normalize_offer_id ((getRef s (.ap j)).offer_id) := by
  induction idxs generalizing s with
  | nil => exact fun x hx => Or.inl hx
  | cons j t ih =>
    intro x hx
    rw [phase2_cons] at hx
    rcases ih (apStep s j) x hx with h | h
    · cases hf : alFind s.al (normalize_offer_id (s.aSt j).offer_id) with
      | some r0 =>
        rw [apStep_eq_match s hf, setRef_al] at h
        exact Or.inl h
      | none =>
        rw [apStep_eq_insert s hf] at h
        rcases mem_alKeys_alSet h with h' | h'
        · exact Or.inl h'
        · exact Or.inr ⟨j, List.mem_cons_self _ _, h'⟩
    · obtain ⟨j', hj', hx'⟩ := h
      rw [apStep_offer_id] at hx'
      exact Or.inr ⟨j', List.mem_cons_of_mem _ hj', hx'⟩

/-- A reference reachable only under key `κ` keeps its value across a
phase-2 segment whose offers all have keys different from `κ`. -/
theorem phase2_untouched_key (s : MState) (idxs : List Nat) (r : Ref) (κ : String)
    (hks : ∀ j ∈ idxs, normalize_offer_id ((getRef s (.ap j)).offer_id) ≠ κ)
    (hal : ∀ e ∈ s.al, e.2 = r → e.1 = κ)
    (hja : ∀ j ∈ idxs, Ref.ap j ≠ r) :
    getRef (phase2 s idxs) r = getRef s r := by
  induction idxs generalizing s with
  | nil => rfl
  | cons j t ih =>
    rw [phase2_cons]
    have hkj : normalize_offer_id ((s.aSt j).offer_id) ≠ κ :=
      hks j (List.mem_cons_self _ _)
    have hstep : getRef (apStep s j) r = getRef s r := by
      cases hf : alFind s.al (normalize_offer_id (s.aSt j).offer_id) with
      | some r0 =>
        rw [apStep_eq_match s hf]
        refine getRef_setRef_ne _ _ (fun hc => ?_)
        exact hkj (hal _ (alFind_some_mem hf) hc.symm)
      | none =>
        rw [apStep_eq_insert s hf, getRef_update_al]
    have hks' : ∀ j' ∈ t, normalize_offer_id ((getRef (apStep s j) (.ap j')).offer_id) ≠ κ := by
      intro j' hj'
      rw [apStep_offer_id]
      exact hks j' (List.mem_cons_of_mem _ hj')
    have hal' : ∀ e ∈ (apStep s j).al, e.2 = r → e.1 = κ := by
      intro e he her
      cases hf : alFind s.al (normalize_offer_id (s.aSt j).offer_id) with
      | some r0 =>
        rw [apStep_eq_match s hf, setRef_al] at he
        exact hal e he her
      | none =>
        rw [apStep_eq_insert s hf] at he
        rcases mem_alSet he with h | h
        · exact hal e h her
        · exfalso
          rw [h] at her
          exact hja j (List.mem_cons_self _ _) her
    rw [ih (apStep s j) hks' hal'
      (fun j' hj' => hja j' (List.mem_cons_of_mem _ hj')), hstep]

theorem alFind_map_of_unique {f : Nat → String × Ref} {idxs : List Nat}
    {k : String} {ia : Nat} (hmem : ia ∈ idxs) (hk : (f ia).1 = k)
    (huniq : ∀ i ∈ idxs, (f i).1 = k → i = ia) :
    alFind (idxs.map f) k = some (f ia).2 := by
  induction idxs with
  | nil => simp at hmem
  | cons i t ih =>
    by_cases hik : (f i).1 = k
    · have : i = ia := huniq i (List.mem_cons_self _ _) hik
      subst this
      simp [alFind, hik]
    · have hne : ia ≠ i := fun hc => hik (hc ▸ hk)
      have hmem' : ia ∈ t := by
        rcases List.mem_cons.mp hmem with h | h
        · exact absurd h hne
        · exact h
      simp only [List.map_cons, alFind, if_neg hik]
      exact ih hmem' (fun i' hi' hk' => huniq i' (List.mem_cons_of_mem _ hi') hk')

/-- The seed loop appends one entry per index when the indices carry
pairwise different keys none of which is already present. -/
theorem seed_al_eq (s : MState) (idxs : List Nat)
    (habs : ∀ i ∈ idxs, normalize_offer_id ((s.eSt i).offer_id) ∉ alKeys s.al)
    (hpw : idxs.Pairwise (fun i i' =>
      normalize_offer_id ((s.eSt i).offer_id) ≠ normalize_offer_id ((s.eSt i').offer_id))) :
    (seed s idxs).al =
      s.al ++ idxs.map (fun i => (normalize_offer_id ((s.eSt i).offer_id), Ref.em i)) := by
  induction idxs generalizing s with
  | nil => simp [seed]
  | cons i t ih =>
    rw [seed_cons]
    have hstep : (seedStep s i).al =
        s.al ++ [(normalize_offer_id ((s.eSt i).offer_id), Ref.em i)] := by
      show alSet s.al _ _ = _
      rw [alSet_of_not_mem (habs i (List.mem_cons_self _ _))]
    have hest : (seedStep s i).eSt = s.eSt := rfl
    have habs' : ∀ i' ∈ t,
        normalize_offer_id (((seedStep s i).eSt i').offer_id) ∉ alKeys (seedStep s i).al := by
      intro i' hi'
      rw [hest, hstep]
      show ¬ _ ∈ alKeys (s.al ++ _)
      rw [alKeys, List.map_append, List.mem_append]
      push_neg
      constructor
      · exact habs i' (List.mem_cons_of_mem _ hi')
      · simp only [List.map_cons, List.map_nil, List.mem_singleton]
        exact ((List.pairwise_cons.mp hpw).1 i' hi').symm
    have hpw' : t.Pairwise (fun i1 i2 =>
        normalize_offer_id (((seedStep s i).eSt i1).offer_id) ≠
          normalize_offer_id (((seedStep s i).eSt i2).offer_id)) := by
      rw [hest]
      exact (List.pairwise_cons.mp hpw).2
    rw [ih (seedStep s i) habs' hpw', hstep, hest]
    simp [List.append_assoc]

/-- Distinct positions carry distinct normalized ids when the mapped key
list is duplicate-free. -/
theorem key_ne_of_nodup {L : List Offer}
    (hL : (L.map (fun o => normalize_offer_id o.offer_id)).Nodup)
    {i j : Nat} (hi : i < L.length) (hj : j < L.length) (hij : i ≠ j) :
    normalize_offer_id ((L.get ⟨i, hi⟩).offer_id) ≠
      normalize_offer_id ((L.get ⟨j, hj⟩).offer_id) := by
  intro hc
  have hlen : (L.map (fun o => normalize_offer_id o.offer_id)).length = L.length :=
    List.length_map _ _
  have hgi : (L.map (fun o => normalize_offer_id o.offer_id)).get
      ⟨i, by rw [hlen]; exact hi⟩ = normalize_offer_id ((L.get ⟨i, hi⟩).offer_id) := by
    simp
  have hgj : (L.map (fun o => normalize_offer_id o.offer_id)).get
      ⟨j, by rw [hlen]; exact hj⟩ = normalize_offer_id ((L.get ⟨j, hj⟩).offer_id) := by
    simp
  have heq := hgi.trans (hc.trans hgj.symm)
  have := (List.Nodup.get_inj_iff hL).mp heq
  exact hij (by simpa using this)

/-- Under duplicate-free spreadsheet keys, the seeded dict is one entry
per row, in order. -/
theorem seedState_al (A B : List Offer)
    (hA : (A.map (fun o => normalize_offer_id o.offer_id)).Nodup) :
    (seed (initState A B) (List.range A.length)).al =
      (List.range A.length).map
        (fun i => (normalize_offer_id ((A.getD i default).offer_id), Ref.em i)) := by
  have h := seed_al_eq (initState A B) (List.range A.length)
    (fun i _ => by simp [initState, alKeys]) ?_
  · rw [h]
    rfl
  · rw [List.pairwise_iff_getElem]
    intro i j hi hj hij
    have hi' : i < A.length := by simpa using hi
    have hj' : j < A.length := by simpa using hj
    have hki : (List.range A.length)[i] = i := List.getElem_range _ _
    have hkj : (List.range A.length)[j] = j := List.getElem_range _ _
    rw [hki, hkj]
    show normalize_offer_id ((A.getD i default).offer_id) ≠
      normalize_offer_id ((A.getD j default).offer_id)
    rw [List.getD_eq_get A default hi', List.getD_eq_get A default hj']
    exact key_ne_of_nodup hA hi' hj' (Nat.ne_of_lt hij)

theorem seedState_eSt (A B : List Offer) (i : Nat) :
    (seed (initState A B) (List.range A.length)).eSt i = A.getD i default := by
  rw [(seed_stores _ _).1]
  rfl

theorem seedState_aSt (A B : List Offer) (j : Nat) :
    (seed (initState A B) (List.range A.length)).aSt j = B.getD j default := by
  rw [(seed_stores _ _).2]
  rfl

/-- The seeded dict resolves a row's normalized id to that row. -/
theorem seedState_find (A B : List Offer)
    (hA : (A.map (fun o => normalize_offer_id o.offer_id)).Nodup)
    {ia : Nat} (hia : ia < A.length) :
    alFind (seed (initState A B) (List.range A.length)).al
      (normalize_offer_id ((A.get ⟨ia, hia⟩).offer_id)) = some (Ref.em ia) := by
  rw [seedState_al A B hA]
  have h := @alFind_map_of_unique
    (fun i => (normalize_offer_id ((A.getD i default).offer_id), Ref.em i))
    (List.range A.length)
    (normalize_offer_id ((A.get ⟨ia, hia⟩).offer_id))
    ia (List.mem_range.mpr hia)
    (by show normalize_offer_id ((A.getD ia default).offer_id) = _
        rw [List.getD_eq_get A default hia])
    ?_
  · exact h
  · intro i hi hk
    have hi' := List.mem_range.mp hi
    by_contra hne
    refine key_ne_of_nodup hA hi' hia hne ?_
    show normalize_offer_id ((A.get ⟨i, hi'⟩).offer_id) = _
    rw [← List.getD_eq_get A default hi']
    exact hk

/-- When both lists are duplicate-free on normalized ids and a
spreadsheet row matches an API offer, the merged collection contains the
enriched spreadsheet row. -/
theorem merge_both_entry (A B : List Offer)
    (hA : (A.map (fun o => normalize_offer_id o.offer_id)).Nodup)
    (hB : (B.map (fun o => normalize_offer_id o.offer_id)).Nodup)
    {ia jb : Nat} (hia : ia < A.length) (hjb : jb < B.length)
    (hmatch : normalize_offer_id ((B.get ⟨jb, hjb⟩).offer_id) =
      normalize_offer_id ((A.get ⟨ia, hia⟩).offer_id)) :
    mutate (A.get ⟨ia, hia⟩) (B.get ⟨jb, hjb⟩) ∈ mergeResult A B := by
  set a := A.get ⟨ia, hia⟩ with ha
  set b := B.get ⟨jb, hjb⟩ with hbdef
  set k := normalize_offer_id a.offer_id with hk
  set S0 := seed (initState A B) (List.range A.length) with hS0
  set pre := List.range jb with hpre
  set post := List.range' (jb + 1) (B.length - jb - 1) with hpost
  set stp := phase2 S0 pre with hstp
  -- B offers before jb have keys different from k
  have hpreKeys : ∀ j ∈ pre, normalize_offer_id ((getRef S0 (.ap j)).offer_id) ≠ k := by
    intro j hj
    have hj' : j < jb := List.mem_range.mp hj
    have hjB : j < B.length := by omega
    have : getRef S0 (.ap j) = B.get ⟨j, hjB⟩ := by
      show S0.aSt j = _
      rw [hS0, seedState_aSt, List.getD_eq_get B default hjB]
    rw [this]
    intro hc
    exact key_ne_of_nodup hB hjB hjb (by omega) (hc.trans hmatch.symm)
  -- B offers after jb have keys different from k
  have hpostKeys : ∀ j ∈ post, normalize_offer_id ((getRef S0 (.ap j)).offer_id) ≠ k := by
    intro j hj
    have hj' := List.mem_range'_1.mp hj
    have hjB : j < B.length := by omega
    have : getRef S0 (.ap j) = B.get ⟨j, hjB⟩ := by
      show S0.aSt j = _
      rw [hS0, seedState_aSt, List.getD_eq_get B default hjB]
    rw [this]
    intro hc
    exact key_ne_of_nodup hB hjB hjb (by omega) (hc.trans hmatch.symm)
  -- seeded entries referencing row ia carry key k
  have halS0 : ∀ e ∈ S0.al, e.2 = Ref.em ia → e.1 = k := by
    intro e he her
    rw [hS0, seedState_al A B hA] at he
    obtain ⟨i, hi, hei⟩ := List.mem_map.mp he
    rw [← hei] at her ⊢
    have hieq : i = ia := by simpa using her
    subst hieq
    show normalize_offer_id ((A.getD i default).offer_id) = k
    rw [List.getD_eq_get A default (List.mem_range.mp hi), hk]
  -- the dict finds row ia under k, before and after the prefix
  have hfind0 : alFind S0.al k = some (.em ia) := seedState_find A B hA hia
  have hfindp : alFind stp.al k = some (.em ia) := phase2_alFind S0 pre hfind0
  -- row ia is untouched by the prefix
  have hrowp : getRef stp (.em ia) = a := by
    rw [hstp, phase2_untouched_key S0 pre (.em ia) k hpreKeys halS0 (fun j _ => by simp)]
    show S0.eSt ia = a
    rw [hS0, seedState_eSt, List.getD_eq_get A default hia]
  -- API offer jb is untouched by the prefix
  have hapip : getRef stp (.ap jb) = b := by
    rw [hstp, phase2_untouched S0 pre (.ap jb) ?_ ?_]
    · show S0.aSt jb = b
      rw [hS0, seedState_aSt, List.getD_eq_get B default hjb]
    · intro e he
      obtain ⟨i, hi, _⟩ := seed_al_em_refs A B e he
      rw [hi]
      simp
    · intro j hj
      have := List.mem_range.mp hj
      intro hc
      rw [Ref.ap.injEq] at hc
      omega
  -- the step at jb enriches row ia in place
  have hmid : apStep stp jb = setRef stp (.em ia) (mutate a b) := by
    have hkey : normalize_offer_id ((stp.aSt jb).offer_id) = k := by
      show normalize_offer_id ((getRef stp (.ap jb)).offer_id) = k
      rw [hapip, hk, hmatch]
    have hb' : stp.aSt jb = b := hapip
    have hf2 : alFind stp.al (normalize_offer_id ((stp.aSt jb).offer_id)) =
        some (Ref.em ia) := by
      rw [hkey]
      exact hfindp
    have := apStep_eq_match stp hf2
    rw [this, hrowp, hb']
  set stm := apStep stp jb with hstm
  have hstmal : stm.al = stp.al := by rw [hmid, setRef_al]
  -- row ia is untouched by the suffix
  have hrowf : getRef (phase2 stm post) (.em ia) = mutate a b := by
    rw [phase2_untouched_key stm post (.em ia) k ?_ ?_ (fun j _ => by simp)]
    · rw [hmid, getRef_setRef_self]
    · intro j hj
      have : (getRef stm (.ap j)).offer_id = (getRef S0 (.ap j)).offer_id := by
        rw [hmid]
        rw [getRef_setRef_ne _ _ (by simp)]
        show (getRef (phase2 S0 pre) (.ap j)).offer_id = _
        exact phase2_offer_id _ _ _
      rw [this]
      exact hpostKeys j hj
    · intro e he her
      rw [hstmal] at he
      rcases phase2_al_sub S0 pre e he with h | h
      · exact halS0 e h her
      · obtain ⟨j, _, hej⟩ := h
        rw [hej] at her
        simp at her
  -- membership of the entry in the final dict
  have hfindf : alFind (phase2 stm post).al k = some (.em ia) :=
    phase2_alFind stm post (by rw [hstmal]; exact hfindp)
  -- assemble the run
  have hrun : mergeRun A B = phase2 stm post := by
    show phase2 S0 (List.range B.length) = _
    rw [range_split B.length jb hjb]
    rw [← hpre, show (jb :: post) = [jb] ++ post from rfl, ← List.append_assoc]
    rw [phase2_append]
    congr 1
    rw [phase2_append]
    exact hstm.symm
  rw [mergeResult, hrun]
  exact List.mem_map.mpr ⟨(k, .em ia), alFind_some_mem hfindf, hrowf⟩

/-- When both lists are duplicate-free on normalized ids and an API offer
matches no spreadsheet row, the merged collection contains it verbatim. -/
theorem merge_new_entry (A B : List Offer)
    (hA : (A.map (fun o => normalize_offer_id o.offer_id)).Nodup)
    (hB : (B.map (fun o => normalize_offer_id o.offer_id)).Nodup)
    {jb : Nat} (hjb : jb < B.length)
    (hno : ∀ o ∈ A, normalize_offer_id o.offer_id ≠
      normalize_offer_id ((B.get ⟨jb, hjb⟩).offer_id)) :
    B.get ⟨jb, hjb⟩ ∈ mergeResult A B := by
  set b := B.get ⟨jb, hjb⟩ with hbdef
  set k := normalize_offer_id b.offer_id with hk
  set S0 := seed (initState A B) (List.range A.length) with hS0
  set pre := List.range jb with hpre
  set post := List.range' (jb + 1) (B.length - jb - 1) with hpost
  set stp := phase2 S0 pre with hstp
  have hK0 : k ∉ alKeys S0.al := by
    intro hmem
    rw [hS0, seedState_al A B hA] at hmem
    unfold alKeys at hmem
    rw [List.map_map] at hmem
    obtain ⟨i, hi, hik⟩ := List.mem_map.mp hmem
    have hi' := List.mem_range.mp hi
    refine hno (A.get ⟨i, hi'⟩) (List.get_mem A _ _) ?_
    show normalize_offer_id ((A.get ⟨i, hi'⟩).offer_id) = k
    rw [← List.getD_eq_get A default hi']
    exact hik
  have hKp : k ∉ alKeys stp.al := by
    intro hmem
    rcases phase2_alKeys_sub S0 pre k hmem with h | h
    · exact hK0 h
    · obtain ⟨j, hj, hkj⟩ := h
      have hj' := List.mem_range.mp hj
      have hjB : j < B.length := by omega
      have : getRef S0 (.ap j) = B.get ⟨j, hjB⟩ := by
        show S0.aSt j = _
        rw [hS0, seedState_aSt, List.getD_eq_get B default hjB]
      rw [this] at hkj
      exact key_ne_of_nodup hB hjB hjb (by omega) hkj.symm
  have hapip : getRef stp (.ap jb) = b := by
    rw [hstp, phase2_untouched S0 pre (.ap jb) ?_ ?_]
    · show S0.aSt jb = b
      rw [hS0, seedState_aSt, List.getD_eq_get B default hjb]
    · intro e he
      obtain ⟨i, hi, _⟩ := seed_al_em_refs A B e he
      rw [hi]
      simp
    · intro j hj
      have := List.mem_range.mp hj
      intro hc
      rw [Ref.ap.injEq] at hc
      omega
  have hmid : apStep stp jb = { stp with al := alSet stp.al k (.ap jb) } := by
    have hkey : normalize_offer_id ((stp.aSt jb).offer_id) = k := by
      show normalize_offer_id ((getRef stp (.ap jb)).offer_id) = k
      rw [hapip]
    have hf2 : alFind stp.al (normalize_offer_id ((stp.aSt jb).offer_id)) = none := by
      rw [hkey]
      exact alFind_eq_none hKp
    have := apStep_eq_insert stp hf2
    rw [this, hkey]
  set stm := apStep stp jb with hstm
  have hstmal : stm.al = stp.al ++ [(k, .ap jb)] := by
    rw [hmid]
    show alSet stp.al k (.ap jb) = _
    exact alSet_of_not_mem hKp
  have hmementry : (k, Ref.ap jb) ∈ stm.al := by
    rw [hstmal]
    exact List.mem_append_right _ (List.mem_singleton.mpr rfl)
  have hapif : getRef (phase2 stm post) (.ap jb) = b := by
    rw [phase2_untouched_key stm post (.ap jb) k ?_ ?_ ?_]
    · rw [hmid, getRef_update_al]
      exact hapip
    · intro j hj
      have hj' := List.mem_range'_1.mp hj
      have hjB : j < B.length := by omega
      have : (getRef stm (.ap j)).offer_id = (getRef S0 (.ap j)).offer_id := by
        rw [hmid, getRef_update_al]
        exact phase2_offer_id _ _ _
      rw [this]
      have hBj : getRef S0 (.ap j) = B.get ⟨j, hjB⟩ := by
        show S0.aSt j = _
        rw [hS0, seedState_aSt, List.getD_eq_get B default hjB]
      rw [hBj, hk]
      exact key_ne_of_nodup hB hjB hjb (by omega)
    · intro e he her
      rw [hstmal] at he
      rcases List.mem_append.mp he with h | h
      · exfalso
        rcases phase2_al_sub S0 pre e h with h' | h'
        · obtain ⟨i, hi, _⟩ := seed_al_em_refs A B e h'
          rw [hi] at her
          simp at her
        · obtain ⟨j, hj, hej⟩ := h'
          rw [hej] at her
          rw [Ref.ap.injEq] at her
          have := List.mem_range.mp hj
          omega
      · rw [List.mem_singleton.mp h]
    · intro j hj
      have hj' := List.mem_range'_1.mp hj
      intro hc
      rw [Ref.ap.injEq] at hc
      omega
  have hmemf : (k, Ref.ap jb) ∈ (phase2 stm post).al :=
    phase2_al_mono stm post hmementry
  have hrun : mergeRun A B = phase2 stm post := by
    show phase2 S0 (List.range B.length) = _
    rw [range_split B.length jb hjb]
    rw [← hpre, show (jb :: post) = [jb] ++ post from rfl, ← List.append_assoc]
    rw [phase2_append]
    congr 1
    rw [phase2_append]
    exact hstm.symm
  rw [mergeResult, hrun]
  exact List.mem_map.mpr ⟨(k, .ap jb), hmemf, hapif⟩

/-! ## Normalization: lowering is idempotent, and the composite is
idempotent unless a trailing slash uncovers whitespace -/

theorem lowerTable_vals_not_keys :
    ∀ p ∈ lowerTable, lowerTable.find? (fun q => q.1 == p.2) = none := by decide

theorem pyLowerChar_idem (c : Char) : pyLowerChar (pyLowerChar c) = pyLowerChar c := by
  cases hf : lowerTable.find? (fun p => p.1 == c) with
  | none =>
    have h1 : pyLowerChar c = c := by
      unfold pyLowerChar
      rw [hf]
      rfl
    rw [h1]
    exact h1
  | some p =>
    have h1 : pyLowerChar c = p.2 := by
      unfold pyLowerChar
      rw [hf]
      rfl
    rw [h1]
    have hmem : p ∈ lowerTable := List.mem_of_find?_eq_some hf
    unfold pyLowerChar
    rw [lowerTable_vals_not_keys p hmem]
    rfl

theorem mem_of_stripL {c : Char} {l : List Char} (h : c ∈ stripL l) : c ∈ l := by
  unfold stripL at h
  exact (List.dropWhile_sublist _).mem ((List.rdropWhile_prefix _ _).sublist.mem h)

theorem mem_of_rstripSlashL {c : Char} {l : List Char} (h : c ∈ rstripSlashL l) : c ∈ l :=
  (List.rdropWhile_prefix _ _).sublist.mem h

theorem lowerL_of_lowered {l : List Char} (h : ∀ c ∈ l, pyLowerChar c = c) :
    lowerL l = l := by
  unfold lowerL
  rw [List.map_congr_left h]
  exact List.map_id _

/-- The head of `dropWhile p` never satisfies `p`. -/
theorem dropWhile_head_not (p : Char → Bool) (m : List Char) {c : Char}
    {rest : List Char} (h : m.dropWhile p = c :: rest) : p c = false := by
  induction m with
  | nil => simp [List.dropWhile] at h
  | cons x m' ih =>
    by_cases hx : p x = true
    · rw [List.dropWhile_cons_of_pos hx] at h
      exact ih h
    · rw [List.dropWhile_cons_of_neg hx] at h
      cases h
      exact Bool.not_eq_true _ ▸ (by simpa using hx)

theorem dropWhile_eq_self_of_prefix {p : Char → Bool} {l m : List Char}
    (hpre : List.IsPrefix l (m.dropWhile p)) : l.dropWhile p = l := by
  cases hl : l with
  | nil => rfl
  | cons c t =>
    obtain ⟨rest, hrest⟩ := hpre
    rw [hl] at hrest
    have hpc : p c = false := dropWhile_head_not p m hrest.symm
    rw [List.dropWhile_cons_of_neg (by simp [hpc])]

/-- `normalize_offer_id` already-normalized strings are stable, provided
the normalized form does not end in whitespace (which happens only when
whitespace preceded the removed trailing slashes). -/
theorem normalize_idem_of_no_trailing_space (s : String)
    (h : ∀ c, (normalize_offer_id s).data.getLast? = some c → isPySpace c = false) :
    normalize_offer_id (normalize_offer_id s) = normalize_offer_id s := by
  unfold normalize_offer_id at h ⊢
  set X := lowerL s.data with hX
  set Y := stripL X with hY
  set R := rstripSlashL Y with hR
  show String.mk (rstripSlashL (stripL (lowerL ((String.mk R).data)))) = String.mk R
  have hdata : (String.mk R).data = R := rfl
  rw [hdata]
  have hlow : lowerL R = R := by
    refine lowerL_of_lowered (fun c hc => ?_)
    have hcX : c ∈ X := mem_of_stripL (mem_of_rstripSlashL hc)
    rw [hX, lowerL] at hcX
    obtain ⟨c0, _, hc0⟩ := List.mem_map.mp hcX
    rw [← hc0]
    exact pyLowerChar_idem c0
  rw [hlow]
  have hstrip : stripL R = R := by
    unfold stripL
    have hdrop : R.dropWhile isPySpace = R := by
      refine dropWhile_eq_self_of_prefix (m := X) ?_
      have h1 : List.IsPrefix R Y := List.rdropWhile_prefix _ _
      have h2 : List.IsPrefix Y (X.dropWhile isPySpace) := by
        rw [hY]
        unfold stripL
        exact List.rdropWhile_prefix _ _
      exact h1.trans h2
    rw [hdrop]
    rw [List.rdropWhile_eq_self_iff]
    intro hne hlast
    have := h (R.getLast hne) (by rw [List.getLast?_eq_getLast R hne])
    rw [this] at hlast
    exact Bool.false_ne_true hlast
  rw [hstrip, hR]
  exact congrArg String.mk (List.rdropWhile_idempotent _ _)

/-! ## First-match characterization of linear scans -/

theorem find?_eq_of_first_match {α : Type} {l : List α} (p : α → Bool) {i : Nat}
    (hi : i < l.length) (hp : p (l.get ⟨i, hi⟩) = true)
    (hfirst : ∀ j (hj : j < l.length), j < i → p (l.get ⟨j, hj⟩) = false) :
    l.find? p = some (l.get ⟨i, hi⟩) := by
  induction l generalizing i with
  | nil => simp at hi
  | cons x t ih =>
    cases i with
    | zero =>
      exact List.find?_cons_of_pos _ hp
    | succ i' =>
      have hx : p x = false := hfirst 0 (by simp) (Nat.succ_pos _)
      rw [List.find?_cons_of_neg _ (by simp [hx])]
      exact ih (i := i') (by simpa using hi) (by simpa using hp)
        (fun j hj hji => by
          have := hfirst (j + 1) (by simpa using hj) (Nat.succ_lt_succ hji)
          simpa using this)

/-- Truthiness coincides with presence on fields that respect the data
model (never `some 0`). -/
theorem truthy_iff_isSome {x : Option Int} (hx : x ≠ some 0) :
    truthyNum x = x.isSome := by
  cases x with
  | none => rfl
  | some v =>
    have : v ≠ 0 := fun hc => hx (by rw [hc])
    simp [truthyNum, this]

/-- Each entry of the merged collection has the normalized id of its key,
and those keys are pairwise distinct. -/
theorem mergeResult_pairwise (A B : List Offer) :
    (mergeResult A B).Pairwise
      (fun o1 o2 => normalize_offer_id o1.offer_id ≠ normalize_offer_id o2.offer_id) := by
  obtain ⟨hnd, hinv⟩ := mergeRun_inv A B
  unfold mergeResult
  rw [List.pairwise_map]
  have hp : (mergeRun A B).al.Pairwise (fun e1 e2 => e1.1 ≠ e2.1) := by
    rw [alKeys] at hnd
    exact (List.pairwise_map.mp hnd)
  exact hp.imp_of_mem (fun {e1 e2} h1 h2 hne => by
    rw [hinv e1 h1, hinv e2 h2]; exact hne)

/-! # Claims -/

/-- C1: For any two offer sequences A (spreadsheet-origin) and B
(api-origin), `merge_offers A B` contains no two entries whose `offer_id`
values have equal normalized form: the normalized `offer_id` is a unique
key of the merged collection. -/
theorem c1_merge_unique_normalized_ids (A B : List Offer) :
    (mergeResult A B).Pairwise
      (fun o1 o2 => normalize_offer_id o1.offer_id ≠ normalize_offer_id o2.offer_id) :=
  mergeResult_pairwise A B

/-- C5 counterexample: load does not succeed for every document
content — a state file whose bytes are not valid UTF-8 makes
`json.load` raise `UnicodeDecodeError`, which the
`except (FileNotFoundError, json.JSONDecodeError)` clause
(src/main.py:61-64) does not catch, so `load_state` raises instead of
returning the empty default. -/
theorem c5_counterexample : load_state_file StateFile.nonUtf8 = none := rfl

/-- C5 (amended): for every persisted document that is missing or whose
bytes decode as UTF-8, load never raises: a missing or JSON-unparsable
document (and any unrecognized JSON value) yields the empty default
structure, and a bare list of identifiers is interpreted as the
message-id set with `api_offer_ids` empty and `last_fetch` null — a
pure in-memory migration, with no write at load time.  A document whose
bytes are not valid UTF-8 instead raises uncaught. -/
theorem c5_load_state_on_decodable :
    (∀ doc : RawDoc, load_state_file (StateFile.utf8 doc) = some (load_state doc)) ∧
    load_state_file (StateFile.utf8 RawDoc.missing) = some ⟨[], [], none⟩ ∧
    load_state_file (StateFile.utf8 RawDoc.corrupt) = some ⟨[], [], none⟩ ∧
    load_state_file (StateFile.utf8 RawDoc.other) = some ⟨[], [], none⟩ ∧
    (∀ ids, load_state_file (StateFile.utf8 (RawDoc.legacy ids)) = some ⟨ids, [], none⟩) :=
  ⟨fun _ => rfl, rfl, rfl, rfl, fun _ => rfl⟩

/-- C7: Merging the same two input sequences a second time (the lists as
left by the first call's in-place mutations) produces exactly the same
merged collection as the first call: same ids and same attribute values,
in the same order. -/
theorem c7_merge_idempotent (A B : List Offer) :
    mergeResult (emailsAfter A B) (apisAfter A B) = mergeResult A B := by
  unfold mergeResult
  rw [mergeRun_again]

/-- C8: Offer-id normalization lowercases, trims surrounding whitespace
and removes the trailing slash; in particular `" ABC-123/ "` and
`"abc-123"` normalize to the same string `"abc-123"`. -/
theorem c8_normalize_example :
    normalize_offer_id " ABC-123/ " = normalize_offer_id "abc-123" ∧
    normalize_offer_id " ABC-123/ " = "abc-123" := by
  exact ⟨by decide, by decide⟩

/-- C9: The concrete spreadsheet row whose link cell wraps
`.../sale/toyota/camry/1131420679-5346d8a6/` in a hyperlink formula
yields the offer id `1131420679-5346d8a6`, brand `TOYOTA` and model
`CAMRY`; a non-formula string link cell passes through `extract_url`
unchanged, and non-string cells yield the empty string. -/
theorem c9_row_extraction :
    ((rowToOffer "not_purchased" ⟨some 0, some 1, some 2, some 3⟩
        [Cell.str "Toyota", Cell.str "Camry", Cell.str "Июль ЕКБ Совхозная",
         Cell.str "=HYPERLINK(\"https://auto.ru/cars/used/sale/toyota/camry/1131420679-5346d8a6/\", \"Ссылка\")"]).map
      (fun o => (o.offer_id, o.brand, o.model))) =
      some ("1131420679-5346d8a6", "TOYOTA", "CAMRY") ∧
    (∀ v : String, pyStartsWith v "=HYPERLINK" = false → extract_url (Cell.str v) = v) ∧
    (∀ n : Int, extract_url (Cell.int n) = "") ∧
    extract_url Cell.blank = "" := by
  refine ⟨by decide, ?_, fun n => rfl, rfl⟩
  intro v hv
  simp only [extract_url]
  rw [hv]
  simp

/-- C9 witness: the pass-through case at a concrete non-formula cell. -/
theorem c9_row_extraction_witness :
    extract_url (Cell.str "https://auto.ru/cars/used/sale/a/b/1-2f/") =
      "https://auto.ru/cars/used/sale/a/b/1-2f/" :=
  c9_row_extraction.2.1 _ (by decide)

/-- C10 counterexample: normalization is not idempotent as claimed for
every string; on `"a /"` the trailing-slash strip exposes a trailing
space, so a second normalization differs from the first. -/
theorem c10_counterexample :
    normalize_offer_id (normalize_offer_id "a /") ≠ normalize_offer_id "a /" := by
  decide

/-- C10 (amended): normalization is idempotent for every string whose
normalized form does not end in whitespace — equivalently, whenever no
whitespace immediately precedes the removed trailing slashes. -/
theorem c10_normalize_idem (s : String)
    (h : ∀ c, (normalize_offer_id s).data.getLast? = some c → isPySpace c = false) :
    normalize_offer_id (normalize_offer_id s) = normalize_offer_id s :=
  normalize_idem_of_no_trailing_space s h

/-- C10 witness: the amended idempotence at a concrete input. -/
theorem c10_normalize_idem_witness :
    normalize_offer_id (normalize_offer_id " ABC-123/ ") = normalize_offer_id " ABC-123/ " :=
  c10_normalize_idem " ABC-123/ " (by
    intro c hc
    have h3 : (normalize_offer_id " ABC-123/ ").data.getLast? = some '3' := by decide
    rw [h3] at hc
    injection hc with h'
    rw [← h']
    decide)

/-- At attempt 2 no further retry ever happens: exactly one request. -/
theorem apiRequest_attempt_two (o : Nat → ApiResp) : (apiRequest o 2).2 = 1 := by
  rw [apiRequest]
  cases ho : o 2 with
  | ok page => rfl
  | httpErr code =>
    by_cases h401 : code = 401
    · simp [h401]
    · have hno : ¬(2 < 2 ∧ code ∈ retryCodes) := fun hc => absurd hc.1 (by omega)
      simp [h401, hno]
  | exc =>
    have hno : ¬(2 < 2) := by omega
    simp [hno]

/-- C4 counterexample: an HTTP failure status outside
`{401, 429, 500, 502, 503}` (here 404) is not retried at all — a single
request is made and the call fails immediately, contrary to the claimed
single retry for "any other failure". -/
theorem c4_counterexample :
    apiRequest (fun _ => ApiResp.httpErr 404) 1 = (none, 1) := by
  rw [apiRequest]
  decide

/-- C4 (amended): per request, at most one retry ever happens; a 401
aborts immediately with no retry; a rate-limit or server-error status
(429/500/502/503) is retried exactly once; any other HTTP failure status
also aborts immediately with no retry; a non-HTTP failure (network
error, timeout) is retried once; and when a page request ultimately
fails, the fetch loop stops and returns the offers accumulated so far. -/
theorem c4_retry_policy (o : Nat → ApiResp) :
    ((apiRequest o 1).2 ≤ 2) ∧
    (o 1 = ApiResp.httpErr 401 → apiRequest o 1 = (none, 1)) ∧
    (∀ c, c ∈ retryCodes → o 1 = ApiResp.httpErr c → (apiRequest o 1).2 = 2) ∧
    (∀ c, c ≠ 401 → c ∉ retryCodes → o 1 = ApiResp.httpErr c →
      apiRequest o 1 = (none, 1)) ∧
    (o 1 = ApiResp.exc → (apiRequest o 1).2 = 2) ∧
    (∀ (req : Nat → Option ApiPage) (fuel page : Nat) (acc : List Offer),
      req page = none → fetchLoop req (fuel + 1) page acc = acc) := by
  refine ⟨?_, ?_, ?_, ?_, ?_, ?_⟩
  · rw [apiRequest]
    cases ho : o 1 with
    | ok page => simp
    | httpErr code =>
      by_cases h401 : code = 401
      · simp [h401]
      · by_cases hr : code ∈ retryCodes
        · have hcond : 1 < 2 ∧ code ∈ retryCodes := ⟨by omega, hr⟩
          simp [h401, hcond, apiRequest_attempt_two]
        · have hcond : ¬(1 < 2 ∧ code ∈ retryCodes) := fun hc => hr hc.2
          simp [h401, hcond, hr]
    | exc =>
      have h12 : (1 : Nat) < 2 := by omega
      simp [h12, apiRequest_attempt_two]
  · intro h
    rw [apiRequest, h]
    simp
  · intro c hc h
    have h401 : ¬(c = 401) := by
      intro hc401
      rw [hc401] at hc
      exact absurd hc (by decide)
    have hcond : 1 < 2 ∧ c ∈ retryCodes := ⟨by omega, hc⟩
    rw [apiRequest, h]
    simp [h401, hcond, apiRequest_attempt_two]
  · intro c h401 hnr h
    rw [apiRequest, h]
    simp [h401, hnr]
  · intro h
    rw [apiRequest, h]
    have h12 : (1 : Nat) < 2 := by omega
    simp [h12, apiRequest_attempt_two]
  · intro req fuel page acc h
    simp [fetchLoop, h]

/-- C4 witness: a rate-limited first attempt is retried exactly once. -/
theorem c4_retry_policy_witness :
    (apiRequest (fun _ => ApiResp.httpErr 429) 1).2 = 2 :=
  (c4_retry_policy (fun _ => ApiResp.httpErr 429)).2.2.1 429 (by decide) rfl

/-- C6 counterexample: a nonempty, all-whitespace salon name that
matches no pattern makes `short_salon` raise `IndexError` at
`name.split()[0]` instead of returning a three-letter prefix. -/
theorem c6_counterexample : short_salon (some " ") = none := by decide

/-- C6 (amended): an absent or empty name yields the sentinel `"???"`;
when the lowercased, trimmed name contains a pattern of the fixed table,
the first matching pattern in declared order wins; when no pattern
matches and the name has a whitespace-delimited token, the result is the
uppercased first three characters of that first token.  (A nonempty
whitespace-only name with no pattern match raises instead.) -/
theorem c6_short_salon_resolution :
    (short_salon none = some "???") ∧
    (short_salon (some "") = some "???") ∧
    (∀ s : String, s ≠ "" →
      (∀ i (hi : i < SALON_SHORT.length),
        isSub (SALON_SHORT.get ⟨i, hi⟩).1 (pyStrip (pyLower s)) = true →
        (∀ j (hj : j < SALON_SHORT.length), j < i →
          isSub (SALON_SHORT.get ⟨j, hj⟩).1 (pyStrip (pyLower s)) = false) →
        short_salon (some s) = some (SALON_SHORT.get ⟨i, hi⟩).2) ∧
      ((∀ pat ∈ SALON_SHORT, isSub pat.1 (pyStrip (pyLower s)) = false) →
        ∀ t, firstToken s.data = some t →
          short_salon (some s) = some (pyUpper ⟨t.take 3⟩))) := by
  refine ⟨rfl, rfl, fun s hs => ⟨?_, ?_⟩⟩
  · intro i hi hp hfirst
    simp only [short_salon, if_neg hs]
    rw [find?_eq_of_first_match (fun p => isSub p.1 (pyStrip (pyLower s))) hi hp hfirst]
  · intro hnone t ht
    simp only [short_salon, if_neg hs]
    rw [List.find?_eq_none.mpr (fun x hx => by simp [hnone x hx]), ht]

/-- C6 witness: a pattern hit (case- and whitespace-insensitive) and a
prefix fallback at concrete names. -/
theorem c6_short_salon_resolution_witness :
    short_salon (some "  Июль ЕКБ Совхозная  ") = some "EKT" ∧
    short_salon (some "Мега Салон") = some "МЕГ" := by
  constructor
  · have h := ((c6_short_salon_resolution.2.2 "  Июль ЕКБ Совхозная  " (by decide)).1
      0 (by decide) (by decide) (fun j hj hj0 => absurd hj0 (by omega)))
    exact h
  · have h := ((c6_short_salon_resolution.2.2 "Мега Салон" (by decide)).2
      (by decide) ['М', 'е', 'г', 'а'] (by decide))
    exact h

/-- C2 counterexample: on a run with no new messages and an empty merge,
`run` saves the state anyway — without any delivery attempt the loaded
legacy document is rewritten at rest, re-encoded in the current dict
format, contrary to "written only after delivery succeeds" and "never
rewritten at rest until the next successful commit". -/
theorem c2_counterexample :
    runPersist (RawDoc.legacy ["m1"]) false [] [] [] false "t" =
      ⟨false, some (RawDoc.jdict (some ["m1"]) (some []) (some none))⟩ ∧
    RawDoc.jdict (some ["m1"]) (some []) (some none) ≠ RawDoc.legacy ["m1"] := by
  exact ⟨by decide, by decide⟩

/-- C2 (amended): when delivery is attempted and fails, nothing is
written (the document rests untouched, hence field-for-field identical);
delivery is attempted exactly when the merge is nonempty; a write
without successful delivery happens only on an empty merge: with
messages present their ids are committed anyway, and with no messages at
all the loaded (migrated) state is rewritten as is — the one path that
re-encodes a legacy document without a delivery.  On success the full
commit is written. -/
theorem c2_commit_policy (raw : RawDoc) (hasEmails : Bool) (newIds : List String)
    (eo ao : List Offer) (succ : Bool) (now : String) :
    ((runPersist raw hasEmails newIds eo ao succ now).attempted = true ∧ succ = false →
      (runPersist raw hasEmails newIds eo ao succ now).written = none) ∧
    ((runPersist raw hasEmails newIds eo ao succ now).attempted = false ↔
      mergeResult eo (filteredApi (load_state raw) ao) = []) ∧
    (∀ d, (runPersist raw hasEmails newIds eo ao succ now).written = some d →
      succ = true ∨ mergeResult eo (filteredApi (load_state raw) ao) = []) ∧
    (mergeResult eo (filteredApi (load_state raw) ao) = [] ∧ hasEmails = false →
      runPersist raw hasEmails newIds eo ao succ now =
        ⟨false, some (encodeState (load_state raw))⟩) ∧
    (mergeResult eo (filteredApi (load_state raw) ao) = [] ∧ hasEmails = true →
      runPersist raw hasEmails newIds eo ao succ now =
        ⟨false, some (encodeState { load_state raw with
          email_message_ids := listUnion (load_state raw).email_message_ids newIds })⟩) ∧
    (mergeResult eo (filteredApi (load_state raw) ao) ≠ [] ∧ succ = true →
      runPersist raw hasEmails newIds eo ao succ now =
        ⟨true, some (encodeState
          { email_message_ids := listUnion (load_state raw).email_message_ids newIds,
            api_offer_ids := listUnion (load_state raw).api_offer_ids
              ((filteredApi (load_state raw) ao).map
                (fun o => normalize_offer_id o.offer_id)).dedup,
            api_last_fetch := some now })⟩) := by
  unfold runPersist
  by_cases hm : mergeResult eo (filteredApi (load_state raw) ao) = []
  · have hm' : (mergeResult eo (filteredApi (load_state raw) ao)).isEmpty = true := by
      rw [hm]
      rfl
    cases hasEmails with
    | false => simp [hm', hm]
    | true => simp [hm', hm]
  · have hm' : (mergeResult eo (filteredApi (load_state raw) ao)).isEmpty = false := by
      cases hme : mergeResult eo (filteredApi (load_state raw) ao) with
      | nil => exact absurd hme hm
      | cons x t => rfl
    cases succ with
    | false => simp [hm', hm]
    | true => simp [hm', hm]

/-- C2 witness: a failed delivery on a nonempty merge writes nothing. -/
theorem c2_commit_policy_witness :
    (runPersist RawDoc.missing true [] [default] [] false "t").written = none :=
  (c2_commit_policy RawDoc.missing true [] [default] [] false "t").1 ⟨by decide, rfl⟩

/-- C3: When both inputs (duplicate-free on normalized ids, numeric
fields never zero per the data model, API offers tagged `api`) contain
an offer with the same normalized id, the merged entry keeps the
spreadsheet-origin brand, model, salon and category, its source becomes
`both`, and each of price/mileage/year equals the spreadsheet-origin
value when present, else the api-origin value; an api-origin offer with
no matching entry is inserted verbatim, keeping `source = "api"`. -/
theorem c3_merge_precedence (A B : List Offer)
    (hA : (A.map (fun o => normalize_offer_id o.offer_id)).Nodup)
    (hB : (B.map (fun o => normalize_offer_id o.offer_id)).Nodup)
    (hnum : ∀ o ∈ A ++ B, o.price ≠ some 0 ∧ o.mileage ≠ some 0 ∧ o.year ≠ some 0)
    (hsrc : ∀ o ∈ B, o.source = "api") :
    (∀ ia jb (hia : ia < A.length) (hjb : jb < B.length),
      normalize_offer_id ((B.get ⟨jb, hjb⟩).offer_id) =
        normalize_offer_id ((A.get ⟨ia, hia⟩).offer_id) →
      ∃ e ∈ mergeResult A B,
        e.brand = (A.get ⟨ia, hia⟩).brand ∧
        e.model = (A.get ⟨ia, hia⟩).model ∧
        e.salon = (A.get ⟨ia, hia⟩).salon ∧
        e.category = (A.get ⟨ia, hia⟩).category ∧
        e.source = "both" ∧
        e.price = (if (A.get ⟨ia, hia⟩).price.isSome then (A.get ⟨ia, hia⟩).price
          else (B.get ⟨jb, hjb⟩).price) ∧
        e.mileage = (if (A.get ⟨ia, hia⟩).mileage.isSome then (A.get ⟨ia, hia⟩).mileage
          else (B.get ⟨jb, hjb⟩).mileage) ∧
        e.year = (if (A.get ⟨ia, hia⟩).year.isSome then (A.get ⟨ia, hia⟩).year
          else (B.get ⟨jb, hjb⟩).year)) ∧
    (∀ jb (hjb : jb < B.length),
      (∀ o ∈ A, normalize_offer_id o.offer_id ≠
        normalize_offer_id ((B.get ⟨jb, hjb⟩).offer_id)) →
      B.get ⟨jb, hjb⟩ ∈ mergeResult A B ∧ (B.get ⟨jb, hjb⟩).source = "api") := by
  constructor
  · intro ia jb hia hjb hmatch
    have ha := hnum (A.get ⟨ia, hia⟩) (List.mem_append_left _ (List.get_mem A ia hia))
    have hb := hnum (B.get ⟨jb, hjb⟩) (List.mem_append_right _ (List.get_mem B jb hjb))
    refine ⟨mutate (A.get ⟨ia, hia⟩) (B.get ⟨jb, hjb⟩),
      merge_both_entry A B hA hB hia hjb hmatch, rfl, rfl, rfl, rfl, rfl, ?_, ?_, ?_⟩
    · simp only [mutate]
      cases hap : (A.get ⟨ia, hia⟩).price with
      | none =>
        cases hbp : (B.get ⟨jb, hjb⟩).price with
        | none => simp [truthyNum]
        | some vb =>
          have hvb : vb ≠ 0 := fun hc => hb.1 (by rw [hbp, hc])
          simp [truthyNum, hvb]
      | some va =>
        have hva : va ≠ 0 := fun hc => ha.1 (by rw [hap, hc])
        simp [truthyNum, hva]
    · simp only [mutate]
      cases hap : (A.get ⟨ia, hia⟩).mileage with
      | none =>
        cases hbp : (B.get ⟨jb, hjb⟩).mileage with
        | none => simp [truthyNum]
        | some vb =>
          have hvb : vb ≠ 0 := fun hc => hb.2.1 (by rw [hbp, hc])
          simp [truthyNum, hvb]
      | some va =>
        have hva : va ≠ 0 := fun hc => ha.2.1 (by rw [hap, hc])
        simp [truthyNum, hva]
    · simp only [mutate]
      cases hap : (A.get ⟨ia, hia⟩).year with
      | none =>
        cases hbp : (B.get ⟨jb, hjb⟩).year with
        | none => simp [truthyNum]
        | some vb =>
          have hvb : vb ≠ 0 := fun hc => hb.2.2 (by rw [hbp, hc])
          simp [truthyNum, hvb]
      | some va =>
        have hva : va ≠ 0 := fun hc => ha.2.2 (by rw [hap, hc])
        simp [truthyNum, hva]
  · intro jb hjb hno
    exact ⟨merge_new_entry A B hA hB hjb hno, hsrc _ (List.get_mem B jb hjb)⟩

/-- C3 witness: a concrete matched pair — the merged entry keeps the
spreadsheet attributes and absorbs the API numeric fields. -/
theorem c3_merge_precedence_witness :
    ∃ e ∈ mergeResult [offA] [offB],
      e.brand = ([offA].get ⟨0, by decide⟩).brand ∧
      e.model = ([offA].get ⟨0, by decide⟩).model ∧
      e.salon = ([offA].get ⟨0, by decide⟩).salon ∧
      e.category = ([offA].get ⟨0, by decide⟩).category ∧
      e.source = "both" ∧
      e.price = (if ([offA].get ⟨0, by decide⟩).price.isSome
        then ([offA].get ⟨0, by decide⟩).price else ([offB].get ⟨0, by decide⟩).price) ∧
      e.mileage = (if ([offA].get ⟨0, by decide⟩).mileage.isSome
        then ([offA].get ⟨0, by decide⟩).mileage else ([offB].get ⟨0, by decide⟩).mileage) ∧
      e.year = (if ([offA].get ⟨0, by decide⟩).year.isSome
        then ([offA].get ⟨0, by decide⟩).year else ([offB].get ⟨0, by decide⟩).year) :=
  (c3_merge_precedence [offA] [offB] (by decide) (by decide)
    (by intro o ho; fin_cases ho <;> exact ⟨by decide, by decide, by decide⟩)
    (by intro o ho; fin_cases ho; decide)).1
    0 0 (by decide) (by decide) (by decide)

end EmailDigest
